import Mathlib

/-!
Shallow embedding of the address codec in `src/addr.rs` (crate `mairu-dns`).

Rust strings are modelled as `List Char`; the `u32` / `u16` / `u128`
machine integers are modelled as `Nat` with an explicit `% 2 ^ w`
wherever the Rust code could wrap (shifts and accumulating folds).
`AddrV4 { addr }` / `AddrV6 { addr }` are plain wrappers around the
integer, so parse functions here return the integer directly inside
`Except Error`.
-/

/-- Error type of `src/addr.rs` (`enum Error`), one constructor per variant. -/
inductive Error where
  | IllegalChar
  | Overflow
  | NullComponent
  | MissingComponents
  | DoubleCompression
deriving DecidableEq, Repr

deriving instance DecidableEq for Except

namespace AddrV4

/-- Loop body of `AddrV4::component_to_u8`: scan the (already stripped)
characters; a non-digit raises `IllegalChar`, otherwise the decimal value is
accumulated (`res = res * 10 + ch - '0'` on a `u32`, hence the `% 2 ^ 32`).
Rust compares `char`s by code point, so `ch < '0' || ch > '9'` is
`ch.toNat < 48 ∨ 57 < ch.toNat`. -/
def compLoop : List Char → Nat → Except Error Nat
  | [], res => .ok res
  | ch :: t, res =>
    if ch.toNat < 48 ∨ 57 < ch.toNat then .error .IllegalChar
    else compLoop t ((res * 10 + (ch.toNat - 48)) % 2 ^ 32)

/-- `AddrV4::component_to_u8`: empty component is `NullComponent`; leading
zeros are stripped; more than 3 remaining characters is `Overflow`; then the
digit loop runs and a final value above 255 is `Overflow`. -/
def component_to_u8 (s : List Char) : Except Error Nat :=
  if s.length = 0 then .error .NullComponent
  else
    let s := s.dropWhile (fun ch => ch = '0')
    if s.length > 3 then .error .Overflow
    else
      match compLoop s 0 with
      | .error e => .error e
      | .ok res => if res < 256 then .ok res else .error .Overflow

/-- `AddrV4::from_u32`: wraps any 32-bit value, never fails. -/
def from_u32 (addr : Nat) : Except Error Nat := .ok addr

/-- Hex-digit classification used by `AddrV4::from_hex`'s if-chain and by the
match in `AddrV6::hextet_to_u16` (the same three code-point ranges `0-9`
(48-57), `a-f` (97-102), `A-F` (65-70); Rust compares `char`s by code
point). -/
def hexDigit? (ch : Char) : Option Nat :=
  if 48 ≤ ch.toNat ∧ ch.toNat ≤ 57 then some (ch.toNat - 48)
  else if 97 ≤ ch.toNat ∧ ch.toNat ≤ 102 then some (ch.toNat - 97 + 10)
  else if 65 ≤ ch.toNat ∧ ch.toNat ≤ 70 then some (ch.toNat - 65 + 10)
  else none

/-- Loop of `AddrV4::from_hex`: non-hex characters are skipped; a 9th hex
digit raises `Overflow` (checked before accumulating); at the end exactly 8
digits are required (`MissingComponents` otherwise). -/
def hexLoop : List Char → Nat → Nat → Except Error Nat
  | [], cnt, irepr => if cnt = 8 then .ok irepr else .error .MissingComponents
  | ch :: t, cnt, irepr =>
    match hexDigit? ch with
    | none => hexLoop t cnt irepr
    | some cur =>
      if cnt ≥ 8 then .error .Overflow
      else hexLoop t (cnt + 1) (((irepr <<< 4) % 2 ^ 32) ||| cur)

/-- `AddrV4::from_hex`. -/
def from_hex (addr : List Char) : Except Error Nat := hexLoop addr 0 0

/-- Loop of `AddrV4::from_string`: characters accumulate into a buffer; each
`'.'` (and the end of input) flushes the buffer through `component_to_u8`
after an `cnt >= 4` overflow check, shifting it into the accumulator
(`res = (res << 8) | comp` on a `u32`). At the end, exactly 4 components are
required. -/
def v4Loop : List Char → List Char → Nat → Nat → Except Error Nat
  | [], buffer, res, cnt =>
    if cnt ≥ 4 then .error .Overflow
    else
      match component_to_u8 buffer with
      | .error e => .error e
      | .ok comp =>
        if cnt + 1 = 4 then .ok (((res <<< 8) % 2 ^ 32) ||| comp)
        else .error .MissingComponents
  | ch :: t, buffer, res, cnt =>
    if ch = '.' then
      if cnt ≥ 4 then .error .Overflow
      else
        match component_to_u8 buffer with
        | .error e => .error e
        | .ok comp => v4Loop t [] (((res <<< 8) % 2 ^ 32) ||| comp) (cnt + 1)
    else v4Loop t (buffer ++ [ch]) res cnt

/-- `AddrV4::from_string`. -/
def from_string (addr : List Char) : Except Error Nat := v4Loop addr [] 0 0

end AddrV4

/-- Character of a single decimal digit `d < 10`. -/
def decChar (d : Nat) : Char := Char.ofNat (48 + d)

/-- Lowercase character of a single hex digit `d < 16`
(`0-9` then `a-f`, code points 48+d and 87+d). -/
def hexChar (d : Nat) : Char := Char.ofNat (if d < 10 then 48 + d else 87 + d)

/-- Little-endian base-`B` digits of `n` (empty for 0), rendered with `f`.
Structural recursion on a fuel bound (`n` itself suffices) so that the
function evaluates inside the kernel. -/
def digitsRevAux (f : Nat → Char) (B : Nat) : Nat → Nat → List Char
  | 0, _ => []
  | fuel + 1, n => if n = 0 then [] else f (n % B) :: digitsRevAux f B fuel (n / B)

/-- Little-endian decimal digits of `n` (empty for 0), as produced by Rust's
`{}` formatting of an unsigned integer. -/
def decDigitsRev (n : Nat) : List Char := digitsRevAux decChar 10 n n

/-- Rust `format!("{}", n)`: decimal, no leading zeros, `"0"` for zero. -/
def toDec (n : Nat) : List Char :=
  if n = 0 then ['0'] else (decDigitsRev n).reverse

/-- Little-endian lowercase hex digits of `n` (empty for 0). -/
def hexDigitsRev (n : Nat) : List Char := digitsRevAux hexChar 16 n n

/-- Rust `format!("{:x}", n)`: lowercase hex, no leading zeros, `"0"` for 0. -/
def toHex (n : Nat) : List Char :=
  if n = 0 then ['0'] else (hexDigitsRev n).reverse

namespace AddrV4

/-- `AddrV4::to_string`: `"a.b.c.d"` from the four big-endian octets. -/
def to_string (addr : Nat) : List Char :=
  toDec ((addr >>> 24) &&& 0xff) ++ '.' ::
    (toDec ((addr >>> 16) &&& 0xff) ++ '.' ::
      (toDec ((addr >>> 8) &&& 0xff) ++ '.' :: toDec (addr &&& 0xff)))

end AddrV4

/-- Rust `str::split(":")`: split at every single `':'`; keeps empty pieces. -/
def splitC : List Char → List (List Char)
  | [] => [[]]
  | ':' :: t => [] :: splitC t
  | c :: t =>
    match splitC t with
    | [] => [[c]]
    | h :: r => (c :: h) :: r

/-- Rust `str::split("::")`: split at each non-overlapping, leftmost
occurrence of two consecutive colons; keeps empty pieces. -/
def splitCC : List Char → List (List Char)
  | [] => [[]]
  | ':' :: ':' :: t => [] :: splitCC t
  | c :: t =>
    match splitCC t with
    | [] => [[c]]
    | h :: r => (c :: h) :: r

namespace AddrV6

/-- Digit loop of `AddrV6::hextet_to_u16`: each character must be a hex digit
(`IllegalChar` otherwise) and is shifted into a `u16` accumulator
(`comp = (comp << 4) | cur`, hence the `% 2 ^ 16`). -/
def hexTLoop : List Char → Nat → Except Error Nat
  | [], comp => .ok comp
  | ch :: t, comp =>
    match AddrV4.hexDigit? ch with
    | none => .error .IllegalChar
    | some cur => hexTLoop t (((comp <<< 4) % 2 ^ 16) ||| cur)

/-- `AddrV6::hextet_to_u16`: more than 4 characters is `Overflow` (checked
before looking at the characters), then the digit loop runs. -/
def hextet_to_u16 (hextet : List Char) : Except Error Nat :=
  if hextet.length > 4 then .error .Overflow
  else hexTLoop hextet 0

/-- `AddrV6::from_u128`: wraps any 128-bit value, never fails. -/
def from_u128 (addr : Nat) : Except Error Nat := .ok addr

/-- Hextet-group fold of `AddrV6::from_string`
(`acc = (acc << 16) | hextet_to_u16(s)` over a `u128`). -/
def v6Fold : List (List Char) → Nat → Except Error Nat
  | [], acc => .ok acc
  | s :: t, acc =>
    match hextet_to_u16 s with
    | .error e => .error e
    | .ok cur => v6Fold t (((acc <<< 16) % 2 ^ 128) ||| cur)

/-- Conversion tail of `AddrV6::from_string`: fold the prefix group, fold the
suffix group, then (when the prefix is non-empty) or the prefix into the high
bits: `suffix_i |= prefix_i << 16 * (8 - prefix.len())`. -/
def assemble (pfx sfx : List (List Char)) : Except Error Nat :=
  match v6Fold pfx 0 with
  | .error e => .error e
  | .ok pfx_i =>
    match v6Fold sfx 0 with
    | .error e => .error e
    | .ok sfx_i =>
      .ok (if pfx.length > 0 then
             sfx_i ||| ((pfx_i <<< (16 * (8 - pfx.length))) % 2 ^ 128)
           else sfx_i)

/-- `AddrV6::from_string`: split on `"::"`, split each part on `":"`
discarding empty tokens, then dispatch on the number of parts (1 part: plain
address needing exactly 8 hextets; 2 parts: compressed address needing
strictly fewer than 8 hextets; 3+ parts: `DoubleCompression`). -/
def from_string (addr : List Char) : Except Error Nat :=
  let parts := (splitCC addr).map
    (fun part => (splitC part).filter (fun s => s.length > 0))
  match parts with
  | [] => .error .MissingComponents
  | [sfx] =>
    if sfx.length < 8 then .error .MissingComponents
    else if sfx.length > 8 then .error .Overflow
    else assemble [] sfx
  | [pfx, sfx] =>
    if pfx.length + sfx.length ≥ 8 then .error .Overflow
    else assemble pfx sfx
  | _ => .error .DoubleCompression

/-- Hextet `i` (big-endian position, 0 = most significant) of a 128-bit
value: `(addr >> 16 * (7 - i)) & 0xffff`. -/
def hextetAt (addr : Nat) (i : Nat) : Nat := (addr >>> (16 * (7 - i))) &&& 0xffff

/-- The `dp` table of `AddrV6::to_string`: `dp[i]` is the length of the run
of consecutive zero hextets ending at position `i` (0 when hextet `i` is
nonzero). `prev` carries `dp[i-1]`. -/
def dpFrom (prev : Nat) : List Nat → List Nat
  | [] => []
  | h :: t =>
    let d := if h = 0 then prev + 1 else 0
    d :: dpFrom d t

/-- The max-scan of `AddrV6::to_string`: strict `dp[i] > max_len` update, so
the result is the maximum together with the first index attaining it. -/
def maxScan : List Nat → Nat → Nat × Nat → Nat × Nat
  | [], _, acc => acc
  | d :: t, i, acc => maxScan t (i + 1) (if d > acc.1 then (d, i) else acc)

/-- `AddrV6::to_string` (RFC 5952 canonical form). Zero formats as `"::"`.
Otherwise the longest-leftmost zero run located through `dp`/max-scan is
compressed when its length exceeds 1: hextets before the run, an empty
marker, hextets after the run, with the first or last element patched from
`""` to `":"` when the run touches an edge, joined by `':'`. The Rust
`(0..=max_pos - max_len)` is an `i32` range, empty when
`max_len > max_pos`, which Nat truncated subtraction reproduces. -/
def to_string (addr : Nat) : List Char :=
  if addr = 0 then [':', ':']
  else
    let hextets := (List.range 8).map (hextetAt addr)
    let dp := dpFrom 0 hextets
    let m := maxScan dp 0 (0, 0)
    if m.1 > 1 then
      let pre := (List.range (m.2 + 1 - m.1)).map (fun i => toHex (hextetAt addr i))
      let suf := (List.range' (m.2 + 1) (7 - m.2)).map (fun i => toHex (hextetAt addr i))
      let parts := pre ++ [[]] ++ suf
      let parts :=
        if parts.head? = some [] then [':'] :: parts.tail
        else if parts.getLast? = some [] then parts.dropLast ++ [[':']]
        else parts
      List.intercalate [':'] parts
    else
      List.intercalate [':'] (hextets.map toHex)

end AddrV6

/-! Value functions and predicates used to state the claims. -/

/-- Decimal value of a digit string (big-endian fold `a * 10 + digit`). -/
def decVal (s : List Char) : Nat := s.foldl (fun a c => a * 10 + (c.toNat - 48)) 0

/-- Numeric value of one hex-digit character (0 for non-hex characters). -/
def hexCharVal (c : Char) : Nat := (AddrV4.hexDigit? c).getD 0

/-- Hex value of a digit string (big-endian fold `a * 16 + digit`). -/
def hexVal (s : List Char) : Nat := s.foldl (fun a c => a * 16 + hexCharVal c) 0

/-- Big-endian recomposition of a list of `w`-bit limbs. -/
def beVal (w : Nat) (l : List Nat) : Nat := l.foldl (fun a h => a * 2 ^ w + h) 0

/-- Whether a character list contains two consecutive colons. -/
def hasCC : List Char → Bool
  | ':' :: ':' :: _ => true
  | _ :: t => hasCC t
  | [] => false

/-! Zero-run selection, abstracted over the zero/nonzero mask of the eight
hextets (`true` = zero hextet). `dpB`/`codeSel` mirror the `dp` table and
max-scan of `AddrV6::to_string`; `runLen`/`isRunStart`/`maxRunLen`/`specSel`
are modelled from the specification's words: identify every maximal run of
consecutive zero groups, select the longest, leftmost on ties, and only runs
of length at least 2 qualify. -/

/-- `dp` recurrence of `AddrV6::to_string` on the zero mask. -/
def dpB (prev : Nat) : List Bool → List Nat
  | [] => []
  | b :: t =>
    let d := if b then prev + 1 else 0
    d :: dpB d t

/-- Run selection exactly as the code computes it: `(max_len, max_pos)` of
the strict max-scan over the `dp` table. -/
def codeSel (m : List Bool) : Nat × Nat := AddrV6.maxScan (dpB 0 m) 0 (0, 0)

/-- Length of the run of consecutive zero groups starting at position `i`. -/
def runLen (m : List Bool) (i : Nat) : Nat := ((m.drop i).takeWhile id).length

/-- Position `i` starts a maximal zero run: it holds a zero group and is
either the first position or preceded by a nonzero group. -/
def isRunStart (m : List Bool) (i : Nat) : Bool :=
  m.getD i false && (i == 0 || !(m.getD (i - 1) false))

/-- Length of the longest maximal zero run. -/
def maxRunLen (m : List Bool) : Nat :=
  (List.range m.length).foldr
    (fun i acc => max (if isRunStart m i then runLen m i else 0) acc) 0

/-- Modelled from the specification's selection words: the start position and
length of the leftmost of the longest maximal zero runs, or `none` when no
maximal run reaches length 2. -/
def specSel (m : List Bool) : Option (Nat × Nat) :=
  if maxRunLen m ≥ 2 then
    ((List.range m.length).find?
        (fun i => isRunStart m i && runLen m i == maxRunLen m)).map
      (fun i => (i, maxRunLen m))
  else none

/-- The eight low bits of `n` as a mask list. -/
def maskBits (n : Nat) : List Bool := (List.range 8).map n.testBit

/-- Agreement of the code's run selection with the specification's: when the
code compresses (`max_len > 1`), the spec selects exactly the run ending at
`max_pos` of length `max_len`; otherwise the spec selects nothing. -/
def selAgree (m : List Bool) : Bool :=
  let c := codeSel m
  if c.1 > 1 then specSel m == some (c.2 + 1 - c.1, c.1) else specSel m == none

/-- Structural facts about the code's selected run needed for round-trip
reasoning: when `max_len > 1`, `max_pos` is in range, the run fits, and every
position inside the run is a zero group. -/
def runFacts (m : List Bool) : Bool :=
  let c := codeSel m
  !(c.1 > 1) || (decide (c.2 < 8) && decide (c.1 ≤ c.2 + 1) &&
    ((List.range' (c.2 + 1 - c.1) c.1).all (fun i => m.getD i false)))

/-- Formatter modelled from the claim's words for the nonzero case: compress
exactly the leftmost longest maximal zero run (length at least 2) chosen by
`specSel`; hextets strictly before the run, then the `::` marker, then
hextets strictly after the run, in lowercase hex with no leading zeros,
joined by `':'` (when the run touches an edge the corresponding side is
empty, leaving `::` at that edge); with no qualifying run, all eight hextets
joined by `':'`. -/
def rfc5952Format (addr : Nat) : List Char :=
  let hs := (List.range 8).map (AddrV6.hextetAt addr)
  match specSel (hs.map (fun h => h == 0)) with
  | some (s, len) =>
    List.intercalate [':'] ((hs.take s).map toHex) ++ ':' :: ':' ::
      List.intercalate [':'] ((hs.drop (s + len)).map toHex)
  | none => List.intercalate [':'] (hs.map toHex)

/-- Sequencing of `hextet_to_u16` over a token list (first error wins), used
to state which hextet values a token list parses to. -/
def hextetsM : List (List Char) → Except Error (List Nat)
  | [] => .ok []
  | t :: ts =>
    match AddrV6.hextet_to_u16 t, hextetsM ts with
    | .ok h, .ok hs => .ok (h :: hs)
    | .error e, _ => .error e
    | .ok _, .error e => .error e

/-! Generic lemmas about big-endian digit folds. -/

theorem foldl_mul_add {α : Type} (B : Nat) (f : α → Nat) :
    ∀ (l : List α) (a : Nat),
      l.foldl (fun x y => x * B + f y) a =
        a * B ^ l.length + l.foldl (fun x y => x * B + f y) 0
  | [], a => by simp
  | y :: l, a => by
    simp only [List.foldl_cons, List.length_cons]
    rw [foldl_mul_add B f l (a * B + f y), foldl_mul_add B f l (0 * B + f y)]
    ring

theorem foldl_mul_add_lt {α : Type} (B : Nat) (f : α → Nat) (hB : 0 < B)
    (l : List α) (h : ∀ y ∈ l, f y < B) :
    l.foldl (fun x y => x * B + f y) 0 < B ^ l.length := by
  induction l with
  | nil => simpa using Nat.one_pos
  | cons y t ih =>
    have hy : f y < B := h y (by simp)
    have ht : t.foldl (fun x y => x * B + f y) 0 < B ^ t.length :=
      ih (fun z hz => h z (by simp [hz]))
    simp only [List.foldl_cons, List.length_cons]
    rw [foldl_mul_add B f t (0 * B + f y)]
    calc (0 * B + f y) * B ^ t.length + t.foldl (fun x y => x * B + f y) 0
        < (f y + 1) * B ^ t.length := by
          simp only [Nat.zero_mul, Nat.zero_add, Nat.add_mul, Nat.one_mul]
          omega
      _ ≤ B * B ^ t.length := Nat.mul_le_mul_right _ hy
      _ = B ^ (t.length + 1) := by ring

theorem foldl_mul_add_nat (B : Nat) :
    ∀ (l : List Nat) (a : Nat),
      l.foldl (fun x y => x * B + y) a =
        a * B ^ l.length + l.foldl (fun x y => x * B + y) 0
  | [], a => by simp
  | y :: l, a => by
    simp only [List.foldl_cons, List.length_cons]
    rw [foldl_mul_add_nat B l (a * B + y), foldl_mul_add_nat B l (0 * B + y)]
    ring

theorem beVal_nil (w : Nat) : beVal w [] = 0 := rfl

theorem beVal_cons (w h : Nat) (t : List Nat) :
    beVal w (h :: t) = h * 2 ^ (w * t.length) + beVal w t := by
  unfold beVal
  simp only [List.foldl_cons]
  rw [foldl_mul_add_nat (2 ^ w) t (0 * 2 ^ w + h)]
  rw [← pow_mul, Nat.mul_comm w t.length]
  ring

theorem beVal_append (w : Nat) (l1 l2 : List Nat) :
    beVal w (l1 ++ l2) = beVal w l1 * 2 ^ (w * l2.length) + beVal w l2 := by
  unfold beVal
  rw [List.foldl_append, foldl_mul_add_nat (2 ^ w) l2]
  rw [← pow_mul, Nat.mul_comm w l2.length]

theorem beVal_lt (w : Nat) (l : List Nat) (h : ∀ x ∈ l, x < 2 ^ w) :
    beVal w l < 2 ^ (w * l.length) := by
  induction l with
  | nil => simpa [beVal_nil] using Nat.one_pos
  | cons y t ih =>
    have hy : y < 2 ^ w := h y (by simp)
    have ht := ih (fun z hz => h z (by simp [hz]))
    rw [beVal_cons]
    calc y * 2 ^ (w * t.length) + beVal w t
        < (y + 1) * 2 ^ (w * t.length) := by
          rw [Nat.add_mul, Nat.one_mul]
          omega
      _ ≤ 2 ^ w * 2 ^ (w * t.length) := Nat.mul_le_mul_right _ hy
      _ = 2 ^ (w * (t.length + 1)) := by rw [← pow_add]; ring_nf

theorem beVal_zeros (w : Nat) (l : List Nat) (h : ∀ x ∈ l, x = 0) :
    beVal w l = 0 := by
  induction l with
  | nil => rfl
  | cons x t ih =>
    have hx : x = 0 := h x (by simp)
    rw [beVal_cons, hx, ih (fun z hz => h z (by simp [hz]))]
    simp

theorem limb_recompose (w : Nat) :
    ∀ (k v : Nat), v < 2 ^ (w * k) →
      beVal w ((List.range k).map (fun i => v / 2 ^ (w * (k - 1 - i)) % 2 ^ w)) = v := by
  intro k
  induction k with
  | zero =>
    intro v hv
    simp only [Nat.mul_zero, pow_zero, Nat.lt_one_iff] at hv
    subst hv
    rfl
  | succ k ih =>
    intro v hv
    rw [List.range_succ]
    simp only [List.map_append, List.map_cons, List.map_nil]
    have hfk : v / 2 ^ (w * (k + 1 - 1 - k)) % 2 ^ w = v % 2 ^ w := by
      have : k + 1 - 1 - k = 0 := by omega
      simp [this]
    have hmap : (List.range k).map (fun i => v / 2 ^ (w * (k + 1 - 1 - i)) % 2 ^ w) =
        (List.range k).map (fun i => v / 2 ^ w / 2 ^ (w * (k - 1 - i)) % 2 ^ w) := by
      apply List.map_congr_left
      intro i hi
      have hik : i < k := List.mem_range.mp hi
      have h1 : k + 1 - 1 - i = (k - 1 - i) + 1 := by omega
      rw [h1, Nat.div_div_eq_div_mul, ← pow_add]
      have h2 : w + w * (k - 1 - i) = w * (k - 1 - i + 1) := by ring
      rw [h2]
    rw [hfk, hmap]
    have hv' : v / 2 ^ w < 2 ^ (w * k) := by
      rw [Nat.div_lt_iff_lt_mul (Nat.pos_pow_of_pos _ (by norm_num))]
      calc v < 2 ^ (w * (k + 1)) := hv
        _ = 2 ^ (w * k) * 2 ^ w := by rw [← pow_add]; ring_nf
    rw [beVal_append, ih (v / 2 ^ w) hv']
    have hb : beVal w [v % 2 ^ w] = v % 2 ^ w := by
      simp [beVal]
    rw [hb]
    simp only [List.length_cons, List.length_nil]
    have h3 : w * (0 + 1) = w := by ring
    rw [h3]
    have hdm := Nat.div_add_mod v (2 ^ w)
    rw [Nat.mul_comm] at hdm
    omega

theorem or_disjoint (a b k : Nat) (hb : b < 2 ^ k) :
    (a * 2 ^ k) ||| b = a * 2 ^ k + b := by
  rw [Nat.mul_comm]
  exact (Nat.mul_add_lt_is_or hb a).symm

/-! Facts about digit characters and digit strings. -/

theorem decChar_toNat : ∀ d, d < 10 → (decChar d).toNat = 48 + d := by decide

theorem decChar_ne_dot : ∀ d, d < 10 → decChar d ≠ '.' := by decide

theorem decChar_ne_zero_char : ∀ d, d < 10 → d ≠ 0 → decChar d ≠ '0' := by decide

theorem hexChar_spec : ∀ d, d < 16 → AddrV4.hexDigit? (hexChar d) = some d := by decide

theorem hexChar_ne_colon : ∀ d, d < 16 → hexChar d ≠ ':' := by decide

theorem hexDigit?_lt {c : Char} {d : Nat} (h : AddrV4.hexDigit? c = some d) :
    d < 16 := by
  unfold AddrV4.hexDigit? at h
  split at h
  · simp only [Option.some.injEq] at h
    omega
  · split at h
    · simp only [Option.some.injEq] at h
      omega
    · split at h
      · simp only [Option.some.injEq] at h
        omega
      · exact absurd h (by simp)

theorem hexDigit?_colon : AddrV4.hexDigit? ':' = none := by decide

theorem hexDigit?_ne_colon {c : Char} {d : Nat} (h : AddrV4.hexDigit? c = some d) :
    c ≠ ':' := by
  intro hc
  rw [hc, hexDigit?_colon] at h
  exact Option.noConfusion h

/-! Facts about the decimal and hex digit strings `toDec` / `toHex`. -/

theorem digitsRevAux_fuel (f : Nat → Char) (B : Nat) (hB : 2 ≤ B) :
    ∀ (fuel : Nat), ∀ (fuel' n : Nat), n ≤ fuel → n ≤ fuel' →
      digitsRevAux f B fuel n = digitsRevAux f B fuel' n := by
  intro fuel
  induction fuel with
  | zero =>
    intro fuel' n hf hf'
    have hn : n = 0 := by omega
    subst hn
    cases fuel' with
    | zero => rfl
    | succ fuel' => simp [digitsRevAux]
  | succ fuel ih =>
    intro fuel' n hf hf'
    cases fuel' with
    | zero =>
      have hn : n = 0 := by omega
      subst hn
      simp [digitsRevAux]
    | succ fuel' =>
      simp only [digitsRevAux]
      by_cases h0 : n = 0
      · simp [h0]
      · rw [if_neg h0, if_neg h0]
        have hdiv : n / B < n := Nat.div_lt_self (Nat.pos_of_ne_zero h0) (by omega)
        rw [ih fuel' (n / B) (by omega) (by omega)]

theorem decDigitsRev_zero : decDigitsRev 0 = [] := rfl

theorem decDigitsRev_cons (n : Nat) (h : n ≠ 0) :
    decDigitsRev n = decChar (n % 10) :: decDigitsRev (n / 10) := by
  unfold decDigitsRev
  cases hn : n with
  | zero => exact absurd hn h
  | succ m =>
    simp only [digitsRevAux, hn]
    rw [if_neg (by omega)]
    have hdiv : (m + 1) / 10 < m + 1 := Nat.div_lt_self (by omega) (by norm_num)
    rw [digitsRevAux_fuel decChar 10 (by norm_num) m ((m + 1) / 10) ((m + 1) / 10)
      (by omega) (by omega)]

theorem hexDigitsRev_zero : hexDigitsRev 0 = [] := rfl

theorem hexDigitsRev_cons (n : Nat) (h : n ≠ 0) :
    hexDigitsRev n = hexChar (n % 16) :: hexDigitsRev (n / 16) := by
  unfold hexDigitsRev
  cases hn : n with
  | zero => exact absurd hn h
  | succ m =>
    simp only [digitsRevAux, hn]
    rw [if_neg (by omega)]
    have hdiv : (m + 1) / 16 < m + 1 := Nat.div_lt_self (by omega) (by norm_num)
    rw [digitsRevAux_fuel hexChar 16 (by norm_num) m ((m + 1) / 16) ((m + 1) / 16)
      (by omega) (by omega)]

theorem decDigitsRev_ne_nil {n : Nat} (h : n ≠ 0) : decDigitsRev n ≠ [] := by
  rw [decDigitsRev_cons n h]
  simp

theorem decDigitsRev_mem : ∀ n, ∀ c ∈ decDigitsRev n, ∃ d, d < 10 ∧ c = decChar d := by
  intro n
  induction n using Nat.strong_induction_on with
  | _ n ih =>
    intro c hc
    by_cases h0 : n = 0
    · rw [h0, decDigitsRev_zero] at hc
      simp at hc
    · rw [decDigitsRev_cons n h0] at hc
      rcases List.mem_cons.mp hc with hc | hc
      · exact ⟨n % 10, Nat.mod_lt _ (by norm_num), hc⟩
      · exact ih (n / 10) (Nat.div_lt_self (Nat.pos_of_ne_zero h0) (by norm_num)) c hc

theorem decDigitsRev_len : ∀ k n, n < 10 ^ k → (decDigitsRev n).length ≤ k := by
  intro k
  induction k with
  | zero =>
    intro n hn
    simp only [pow_zero, Nat.lt_one_iff] at hn
    subst hn
    rw [decDigitsRev_zero]
    simp
  | succ k ih =>
    intro n hn
    by_cases h0 : n = 0
    · subst h0
      rw [decDigitsRev_zero]
      simp
    · rw [decDigitsRev_cons n h0]
      simp only [List.length_cons]
      have : n / 10 < 10 ^ k := by
        rw [Nat.div_lt_iff_lt_mul (by norm_num)]
        calc n < 10 ^ (k + 1) := hn
          _ = 10 ^ k * 10 := by rw [pow_succ]
      exact Nat.succ_le_succ (ih (n / 10) this)

theorem decVal_append_singleton (l : List Char) (c : Char) :
    decVal (l ++ [c]) = decVal l * 10 + (c.toNat - 48) := by
  unfold decVal
  rw [List.foldl_append]
  rfl

theorem decVal_rev : ∀ n, decVal (decDigitsRev n).reverse = n := by
  intro n
  induction n using Nat.strong_induction_on with
  | _ n ih =>
    by_cases h0 : n = 0
    · subst h0
      rw [decDigitsRev_zero]
      simp [decVal]
    · rw [decDigitsRev_cons n h0]
      simp only [List.reverse_cons]
      rw [decVal_append_singleton]
      rw [ih (n / 10) (Nat.div_lt_self (Nat.pos_of_ne_zero h0) (by norm_num))]
      have h10 : n % 10 < 10 := Nat.mod_lt _ (by norm_num)
      rw [decChar_toNat _ h10]
      have := Nat.div_add_mod n 10
      omega

theorem decVal_toDec (n : Nat) : decVal (toDec n) = n := by
  unfold toDec
  by_cases h0 : n = 0
  · subst h0
    rfl
  · simp only [h0, ite_false]
    exact decVal_rev n

theorem toDec_ne_nil (n : Nat) : toDec n ≠ [] := by
  unfold toDec
  by_cases h0 : n = 0
  · simp [h0]
  · simp only [h0, ite_false]
    intro h
    exact decDigitsRev_ne_nil h0 (by simpa using congrArg List.reverse h)

theorem toDec_digits (n : Nat) : ∀ c ∈ toDec n, 48 ≤ c.toNat ∧ c.toNat ≤ 57 := by
  intro c hc
  unfold toDec at hc
  by_cases h0 : n = 0
  · simp [h0] at hc
    subst hc
    decide
  · simp only [h0, ite_false, List.mem_reverse] at hc
    obtain ⟨d, hd, rfl⟩ := decDigitsRev_mem n c hc
    rw [decChar_toNat d hd]
    omega

theorem toDec_len (n : Nat) (h : n < 1000) : (toDec n).length ≤ 3 := by
  unfold toDec
  by_cases h0 : n = 0
  · simp [h0]
  · simp only [h0, ite_false, List.length_reverse]
    exact decDigitsRev_len 3 n (by norm_num at h ⊢; omega)

theorem decDigitsRev_last (n : Nat) (h : n ≠ 0) :
    ∃ d, d ≠ 0 ∧ d < 10 ∧ (decDigitsRev n).getLast? = some (decChar d) := by
  induction n using Nat.strong_induction_on with
  | _ n ih =>
    rw [decDigitsRev_cons n h]
    by_cases hq : n / 10 = 0
    · refine ⟨n % 10, ?_, Nat.mod_lt _ (by norm_num), ?_⟩
      · have : n < 10 := by omega
        omega
      · rw [hq, decDigitsRev_zero]
        rfl
    · obtain ⟨d, hd0, hd10, hlast⟩ :=
        ih (n / 10) (Nat.div_lt_self (Nat.pos_of_ne_zero h) (by norm_num)) hq
      refine ⟨d, hd0, hd10, ?_⟩
      rw [List.getLast?_cons, hlast]
      simp

theorem toDec_dropWhile (n : Nat) (h : n ≠ 0) :
    (toDec n).dropWhile (fun ch => ch = '0') = toDec n := by
  obtain ⟨d, hd0, hd10, hlast⟩ := decDigitsRev_last n h
  have hhead : (toDec n).head? = some (decChar d) := by
    unfold toDec
    simp only [h, ite_false]
    rw [List.head?_reverse]
    exact hlast
  have hne : decChar d ≠ '0' := decChar_ne_zero_char d hd10 hd0
  cases hl : toDec n with
  | nil => rfl
  | cons x t =>
    rw [hl] at hhead
    simp only [List.head?_cons, Option.some.injEq] at hhead
    subst hhead
    rw [List.dropWhile_cons]
    simp [hne]

theorem hexDigitsRev_ne_nil {n : Nat} (h : n ≠ 0) : hexDigitsRev n ≠ [] := by
  rw [hexDigitsRev_cons n h]
  simp

theorem hexDigitsRev_mem : ∀ n, ∀ c ∈ hexDigitsRev n, ∃ d, d < 16 ∧ c = hexChar d := by
  intro n
  induction n using Nat.strong_induction_on with
  | _ n ih =>
    intro c hc
    by_cases h0 : n = 0
    · rw [h0, hexDigitsRev_zero] at hc
      simp at hc
    · rw [hexDigitsRev_cons n h0] at hc
      rcases List.mem_cons.mp hc with hc | hc
      · exact ⟨n % 16, Nat.mod_lt _ (by norm_num), hc⟩
      · exact ih (n / 16) (Nat.div_lt_self (Nat.pos_of_ne_zero h0) (by norm_num)) c hc

theorem hexDigitsRev_len : ∀ k n, n < 16 ^ k → (hexDigitsRev n).length ≤ k := by
  intro k
  induction k with
  | zero =>
    intro n hn
    simp only [pow_zero, Nat.lt_one_iff] at hn
    subst hn
    rw [hexDigitsRev_zero]
    simp
  | succ k ih =>
    intro n hn
    by_cases h0 : n = 0
    · subst h0
      rw [hexDigitsRev_zero]
      simp
    · rw [hexDigitsRev_cons n h0]
      simp only [List.length_cons]
      have : n / 16 < 16 ^ k := by
        rw [Nat.div_lt_iff_lt_mul (by norm_num)]
        calc n < 16 ^ (k + 1) := hn
          _ = 16 ^ k * 16 := by rw [pow_succ]
      exact Nat.succ_le_succ (ih (n / 16) this)

theorem hexVal_append_singleton (l : List Char) (c : Char) :
    hexVal (l ++ [c]) = hexVal l * 16 + hexCharVal c := by
  unfold hexVal
  rw [List.foldl_append]
  rfl

theorem hexVal_rev : ∀ n, hexVal (hexDigitsRev n).reverse = n := by
  intro n
  induction n using Nat.strong_induction_on with
  | _ n ih =>
    by_cases h0 : n = 0
    · subst h0
      rw [hexDigitsRev_zero]
      simp [hexVal]
    · rw [hexDigitsRev_cons n h0]
      simp only [List.reverse_cons]
      rw [hexVal_append_singleton]
      rw [ih (n / 16) (Nat.div_lt_self (Nat.pos_of_ne_zero h0) (by norm_num))]
      have h16 : n % 16 < 16 := Nat.mod_lt _ (by norm_num)
      have : hexCharVal (hexChar (n % 16)) = n % 16 := by
        unfold hexCharVal
        rw [hexChar_spec _ h16]
        rfl
      rw [this]
      have := Nat.div_add_mod n 16
      omega

theorem hexVal_toHex (n : Nat) : hexVal (toHex n) = n := by
  unfold toHex
  by_cases h0 : n = 0
  · subst h0
    rfl
  · simp only [h0, ite_false]
    exact hexVal_rev n

theorem toHex_ne_nil (n : Nat) : toHex n ≠ [] := by
  unfold toHex
  by_cases h0 : n = 0
  · simp [h0]
  · simp only [h0, ite_false]
    intro h
    exact hexDigitsRev_ne_nil h0 (by simpa using congrArg List.reverse h)

theorem toHex_hex_chars (n : Nat) : ∀ c ∈ toHex n, ∃ d, AddrV4.hexDigit? c = some d := by
  intro c hc
  unfold toHex at hc
  by_cases h0 : n = 0
  · simp [h0] at hc
    subst hc
    exact ⟨0, by decide⟩
  · simp only [h0, ite_false, List.mem_reverse] at hc
    obtain ⟨d, hd, rfl⟩ := hexDigitsRev_mem n c hc
    exact ⟨d, hexChar_spec d hd⟩

theorem toHex_no_colon (n : Nat) : ':' ∉ toHex n := by
  intro hc
  obtain ⟨d, hd⟩ := toHex_hex_chars n ':' hc
  rw [hexDigit?_colon] at hd
  exact Option.noConfusion hd

theorem toHex_len (n : Nat) (h : n < 2 ^ 16) : (toHex n).length ≤ 4 := by
  unfold toHex
  by_cases h0 : n = 0
  · simp [h0]
  · simp only [h0, ite_false, List.length_reverse]
    exact hexDigitsRev_len 4 n (by norm_num at h ⊢; omega)

/-! Bridge lemmas for the V4 decimal component parser. -/

theorem decVal_cons (c : Char) (t : List Char) :
    decVal (c :: t) = (c.toNat - 48) * 10 ^ t.length + decVal t := by
  unfold decVal
  simp only [List.foldl_cons]
  have := foldl_mul_add 10 (fun c : Char => c.toNat - 48) t (0 * 10 + (c.toNat - 48))
  simpa using this

theorem decVal_lt (s : List Char) (h : ∀ c ∈ s, 48 ≤ c.toNat ∧ c.toNat ≤ 57) :
    decVal s < 10 ^ s.length := by
  have := foldl_mul_add_lt 10 (fun c : Char => c.toNat - 48) (by norm_num) s
    (fun c hc => by have := h c hc; show c.toNat - 48 < 10; omega)
  simpa [decVal] using this

theorem compLoop_ok (s : List Char) : ∀ res : Nat,
    (∀ c ∈ s, 48 ≤ c.toNat ∧ c.toNat ≤ 57) →
    res * 10 ^ s.length + decVal s < 2 ^ 32 →
    AddrV4.compLoop s res = .ok (res * 10 ^ s.length + decVal s) := by
  induction s with
  | nil =>
    intro res _ _
    simp [AddrV4.compLoop, decVal]
  | cons c t ih =>
    intro res hd hb
    have hc : 48 ≤ c.toNat ∧ c.toNat ≤ 57 := hd c (by simp)
    rw [decVal_cons] at hb ⊢
    simp only [List.length_cons] at hb ⊢
    have h10 : (10 : Nat) ≤ 10 ^ (t.length + 1) := by
      calc (10 : Nat) = 10 ^ 1 := (pow_one 10).symm
        _ ≤ 10 ^ (t.length + 1) := Nat.pow_le_pow_right (by norm_num) (by omega)
    have hdig : (c.toNat - 48) ≤ (c.toNat - 48) * 10 ^ t.length :=
      Nat.le_mul_of_pos_right _ (Nat.pos_pow_of_pos _ (by norm_num))
    have hstep : res * 10 + (c.toNat - 48) < 2 ^ 32 := by
      have h1 : res * 10 ≤ res * 10 ^ (t.length + 1) := Nat.mul_le_mul_left res h10
      omega
    simp only [AddrV4.compLoop]
    rw [if_neg (by omega)]
    rw [Nat.mod_eq_of_lt hstep]
    have := ih (res * 10 + (c.toNat - 48)) (fun z hz => hd z (by simp [hz]))
      (by
        rw [show (res * 10 + (c.toNat - 48)) * 10 ^ t.length + decVal t =
          res * 10 ^ (t.length + 1) + ((c.toNat - 48) * 10 ^ t.length + decVal t) from by
            ring]
        exact hb)
    rw [this]
    congr 1
    ring

theorem compLoop_illegal (s : List Char) : ∀ res : Nat,
    (∃ c ∈ s, c.toNat < 48 ∨ 57 < c.toNat) →
    AddrV4.compLoop s res = .error .IllegalChar := by
  induction s with
  | nil =>
    intro res h
    simp at h
  | cons c t ih =>
    intro res h
    simp only [AddrV4.compLoop]
    by_cases hc : c.toNat < 48 ∨ 57 < c.toNat
    · rw [if_pos hc]
    · rw [if_neg hc]
      apply ih
      obtain ⟨z, hz, hzbad⟩ := h
      rcases List.mem_cons.mp hz with rfl | hz'
      · exact absurd hzbad hc
      · exact ⟨z, hz', hzbad⟩

theorem compLoop_ok_digits {s : List Char} {res r : Nat}
    (h : AddrV4.compLoop s res = .ok r) : ∀ c ∈ s, 48 ≤ c.toNat ∧ c.toNat ≤ 57 := by
  induction s generalizing res with
  | nil => simp
  | cons c t ih =>
    simp only [AddrV4.compLoop] at h
    by_cases hc : c.toNat < 48 ∨ 57 < c.toNat
    · rw [if_pos hc] at h
      exact absurd h (by simp)
    · rw [if_neg hc] at h
      intro z hz
      rcases List.mem_cons.mp hz with rfl | hz'
      · omega
      · exact ih h z hz'

theorem decVal_zeros_aux (t : List Char) (h : ∀ c ∈ t, c = '0') :
    decVal t = 0 := by
  induction t with
  | nil => rfl
  | cons c r ih =>
    have hc : c = '0' := h c (by simp)
    rw [decVal_cons, hc, ih (fun z hz => h z (by simp [hz]))]
    simp

theorem decVal_dropWhile_zeros (s : List Char) :
    decVal (s.dropWhile (fun ch => ch = '0')) = decVal s := by
  conv_rhs => rw [← List.takeWhile_append_dropWhile (p := fun ch => decide (ch = '0')) (l := s)]
  unfold decVal
  rw [List.foldl_append]
  have : List.foldl (fun a c => a * 10 + (c.toNat - 48)) 0
      (s.takeWhile (fun ch => decide (ch = '0'))) = 0 := by
    have hz : ∀ c ∈ s.takeWhile (fun ch => decide (ch = '0')), c = '0' := by
      intro c hc
      have := List.mem_takeWhile_imp hc
      simpa using this
    exact decVal_zeros_aux _ hz
  rw [this]

theorem mem_dropWhile_of_ne {s : List Char} {c : Char} (hc : c ∈ s) (hne : c ≠ '0') :
    c ∈ s.dropWhile (fun ch => ch = '0') := by
  have hsplit := List.takeWhile_append_dropWhile (p := fun ch => decide (ch = '0')) (l := s)
  rw [← hsplit] at hc
  rcases List.mem_append.mp hc with h | h
  · have := List.mem_takeWhile_imp h
    simp at this
    exact absurd this hne
  · exact h

theorem component_to_u8_toDec (n : Nat) (h : n < 256) :
    AddrV4.component_to_u8 (toDec n) = .ok n := by
  by_cases h0 : n = 0
  · subst h0
    decide
  · unfold AddrV4.component_to_u8
    have hne : (toDec n).length ≠ 0 := by
      simpa [List.length_eq_zero] using toDec_ne_nil n
    rw [if_neg hne]
    simp only
    rw [toDec_dropWhile n h0]
    rw [if_neg (by have := toDec_len n (by omega); omega)]
    have hloop := compLoop_ok (toDec n) 0 (toDec_digits n)
      (by rw [decVal_toDec]; simp; omega)
    rw [decVal_toDec] at hloop
    simp only [Nat.zero_mul, Nat.zero_add] at hloop
    rw [hloop]
    simp [h]

theorem component_to_u8_overflow_val (s : List Char)
    (hd : ∀ c ∈ s, 48 ≤ c.toNat ∧ c.toNat ≤ 57) (hne : s ≠ [])
    (hv : 255 < decVal s) : AddrV4.component_to_u8 s = .error .Overflow := by
  unfold AddrV4.component_to_u8
  rw [if_neg (by simpa [List.length_eq_zero] using hne)]
  simp only
  by_cases hlen : (s.dropWhile (fun ch => ch = '0')).length > 3
  · rw [if_pos hlen]
  · rw [if_neg hlen]
    have hd' : ∀ c ∈ s.dropWhile (fun ch => ch = '0'), 48 ≤ c.toNat ∧ c.toNat ≤ 57 :=
      fun c hc => hd c (List.dropWhile_sublist _ |>.mem hc)
    have hloop := compLoop_ok (s.dropWhile (fun ch => ch = '0')) 0 hd'
      (by
        have := decVal_lt _ hd'
        have h3 : (10 : Nat) ^ (s.dropWhile (fun ch => ch = '0')).length ≤ 10 ^ 3 :=
          Nat.pow_le_pow_right (by norm_num) (by omega)
        simp only [Nat.zero_mul, Nat.zero_add]
        calc decVal (s.dropWhile (fun ch => ch = '0')) < 10 ^ 3 := lt_of_lt_of_le this h3
          _ < 2 ^ 32 := by norm_num)
    simp only [Nat.zero_mul, Nat.zero_add] at hloop
    rw [hloop]
    have hvv : decVal (List.dropWhile (fun ch => decide (ch = '0')) s) = decVal s :=
      decVal_dropWhile_zeros s
    have hnot : ¬ decVal (List.dropWhile (fun ch => decide (ch = '0')) s) < 256 := by
      rw [hvv]
      omega
    simp [hnot]

theorem component_to_u8_long (s : List Char)
    (h : (s.dropWhile (fun ch => ch = '0')).length > 3) :
    AddrV4.component_to_u8 s = .error .Overflow := by
  unfold AddrV4.component_to_u8
  have hlen : s.length ≠ 0 := by
    have := (List.dropWhile_sublist (l := s) (p := fun ch => decide (ch = '0'))).length_le
    omega
  rw [if_neg hlen]
  simp only
  rw [if_pos h]

theorem component_to_u8_illegal (s : List Char)
    (hlen : (s.dropWhile (fun ch => ch = '0')).length ≤ 3)
    (hbad : ∃ c ∈ s, c.toNat < 48 ∨ 57 < c.toNat) :
    AddrV4.component_to_u8 s = .error .IllegalChar := by
  obtain ⟨c, hc, hcbad⟩ := hbad
  unfold AddrV4.component_to_u8
  rw [if_neg (by
    intro h
    rw [List.length_eq_zero] at h
    subst h
    simp at hc)]
  simp only
  rw [if_neg (by omega)]
  have hcz : c ≠ '0' := by
    intro h
    subst h
    simp at hcbad
  have hcd : c ∈ s.dropWhile (fun ch => ch = '0') := mem_dropWhile_of_ne hc hcz
  rw [compLoop_illegal _ 0 ⟨c, hcd, hcbad⟩]

theorem component_to_u8_ok_no_dot {s : List Char} {r : Nat}
    (h : AddrV4.component_to_u8 s = .ok r) : '.' ∉ s := by
  intro hdot
  unfold AddrV4.component_to_u8 at h
  by_cases h0 : s.length = 0
  · rw [if_pos h0] at h
    exact absurd h (by simp)
  · rw [if_neg h0] at h
    simp only at h
    by_cases h3 : (s.dropWhile (fun ch => ch = '0')).length > 3
    · rw [if_pos h3] at h
      exact absurd h (by simp)
    · rw [if_neg h3] at h
      cases hloop : AddrV4.compLoop (s.dropWhile (fun ch => ch = '0')) 0 with
      | error e => rw [hloop] at h; exact absurd h (by simp)
      | ok res =>
        have hdigits := compLoop_ok_digits hloop
        by_cases hz : ('.' : Char) = '0'
        · exact absurd hz (by decide)
        · have := hdigits '.' (mem_dropWhile_of_ne hdot hz)
          revert this
          decide

/-! Bridge lemmas for the V6 hextet parser and group folds. -/

theorem hexVal_cons (c : Char) (t : List Char) :
    hexVal (c :: t) = hexCharVal c * 16 ^ t.length + hexVal t := by
  unfold hexVal
  simp only [List.foldl_cons]
  have := foldl_mul_add 16 hexCharVal t (0 * 16 + hexCharVal c)
  simpa using this

theorem hexTLoop_ok (s : List Char) : ∀ acc : Nat,
    (∀ c ∈ s, (AddrV4.hexDigit? c).isSome) →
    acc * 16 ^ s.length + hexVal s < 2 ^ 16 →
    AddrV6.hexTLoop s acc = .ok (acc * 16 ^ s.length + hexVal s) := by
  induction s with
  | nil =>
    intro acc _ _
    simp [AddrV6.hexTLoop, hexVal]
  | cons c t ih =>
    intro acc hd hb
    obtain ⟨d, hdig⟩ := Option.isSome_iff_exists.mp (hd c (by simp))
    have hd16 : d < 16 := hexDigit?_lt hdig
    have hcv : hexCharVal c = d := by
      unfold hexCharVal
      rw [hdig]
      rfl
    rw [hexVal_cons, hcv] at hb ⊢
    simp only [List.length_cons] at hb ⊢
    have h16 : (16 : Nat) ≤ 16 ^ (t.length + 1) := by
      calc (16 : Nat) = 16 ^ 1 := (pow_one 16).symm
        _ ≤ 16 ^ (t.length + 1) := Nat.pow_le_pow_right (by norm_num) (by omega)
    have hdd : d ≤ d * 16 ^ t.length :=
      Nat.le_mul_of_pos_right _ (Nat.pos_pow_of_pos _ (by norm_num))
    have hstep : acc * 16 + d < 2 ^ 16 := by
      have h1 : acc * 16 ≤ acc * 16 ^ (t.length + 1) := Nat.mul_le_mul_left acc h16
      omega
    simp only [AddrV6.hexTLoop, hdig]
    have hsh : (acc <<< 4) % 2 ^ 16 = acc * 16 := by
      rw [Nat.shiftLeft_eq]
      rw [show (2 : Nat) ^ 4 = 16 from by norm_num]
      exact Nat.mod_eq_of_lt (by omega)
    rw [hsh]
    have hor : (acc * 16) ||| d = acc * 16 + d := by
      have := or_disjoint acc d 4 (by
        show d < 2 ^ 4
        norm_num
        omega)
      rw [show (2 : Nat) ^ 4 = 16 from by norm_num] at this
      exact this
    rw [hor]
    have := ih (acc * 16 + d) (fun z hz => hd z (by simp [hz]))
      (by
        rw [show (acc * 16 + d) * 16 ^ t.length + hexVal t =
          acc * 16 ^ (t.length + 1) + (d * 16 ^ t.length + hexVal t) from by ring]
        exact hb)
    rw [this]
    congr 1
    ring

theorem hexTLoop_lt (s : List Char) : ∀ acc h : Nat, acc < 2 ^ 16 →
    AddrV6.hexTLoop s acc = .ok h → h < 2 ^ 16 := by
  induction s with
  | nil =>
    intro acc h hacc hloop
    simp [AddrV6.hexTLoop] at hloop
    omega
  | cons c t ih =>
    intro acc h hacc hloop
    simp only [AddrV6.hexTLoop] at hloop
    cases hdig : AddrV4.hexDigit? c with
    | none => rw [hdig] at hloop; exact absurd hloop (by simp)
    | some d =>
      rw [hdig] at hloop
      simp only at hloop
      apply ih _ h _ hloop
      apply Nat.or_lt_two_pow
      · exact Nat.mod_lt _ (by norm_num)
      · have := hexDigit?_lt hdig
        omega

theorem hextet_to_u16_toHex (h : Nat) (hlt : h < 2 ^ 16) :
    AddrV6.hextet_to_u16 (toHex h) = .ok h := by
  unfold AddrV6.hextet_to_u16
  rw [if_neg (by have := toHex_len h hlt; omega)]
  have hchars : ∀ c ∈ toHex h, (AddrV4.hexDigit? c).isSome := by
    intro c hc
    obtain ⟨d, hd⟩ := toHex_hex_chars h c hc
    simp [hd]
  have := hexTLoop_ok (toHex h) 0 hchars
    (by rw [hexVal_toHex]; simpa using hlt)
  rw [hexVal_toHex] at this
  simpa using this

theorem hextet_to_u16_lt {t : List Char} {h : Nat}
    (ht : AddrV6.hextet_to_u16 t = .ok h) : h < 2 ^ 16 := by
  unfold AddrV6.hextet_to_u16 at ht
  by_cases hlen : t.length > 4
  · rw [if_pos hlen] at ht
    exact absurd ht (by simp)
  · rw [if_neg hlen] at ht
    exact hexTLoop_lt t 0 h (by norm_num) ht

theorem hextet_to_u16_long (t : List Char) (h : t.length > 4) :
    AddrV6.hextet_to_u16 t = .error .Overflow := by
  unfold AddrV6.hextet_to_u16
  rw [if_pos h]

theorem hextetsM_length : ∀ {l : List (List Char)} {l' : List Nat},
    hextetsM l = .ok l' → l'.length = l.length := by
  intro l
  induction l with
  | nil =>
    intro l' h
    simp only [hextetsM, Except.ok.injEq] at h
    subst h
    rfl
  | cons t ts ih =>
    intro l' h
    simp only [hextetsM] at h
    cases hx : AddrV6.hextet_to_u16 t with
    | error e => rw [hx] at h; exact absurd h (by simp)
    | ok y =>
      cases ht : hextetsM ts with
      | error e => rw [hx, ht] at h; exact absurd h (by simp)
      | ok ys =>
        rw [hx, ht] at h
        simp only [Except.ok.injEq] at h
        subst h
        simp [ih ht]

theorem hextetsM_lt : ∀ {l : List (List Char)} {l' : List Nat},
    hextetsM l = .ok l' → ∀ x ∈ l', x < 2 ^ 16 := by
  intro l
  induction l with
  | nil =>
    intro l' h
    simp only [hextetsM, Except.ok.injEq] at h
    subst h
    simp
  | cons t ts ih =>
    intro l' h
    simp only [hextetsM] at h
    cases hx : AddrV6.hextet_to_u16 t with
    | error e => rw [hx] at h; exact absurd h (by simp)
    | ok y =>
      cases ht : hextetsM ts with
      | error e => rw [hx, ht] at h; exact absurd h (by simp)
      | ok ys =>
        rw [hx, ht] at h
        simp only [Except.ok.injEq] at h
        subst h
        intro x hx'
        rcases List.mem_cons.mp hx' with rfl | hmem
        · exact hextet_to_u16_lt hx
        · exact ih ht x hmem

theorem hextetsM_toHex (hs : List Nat) (h : ∀ x ∈ hs, x < 2 ^ 16) :
    hextetsM (hs.map toHex) = .ok hs := by
  induction hs with
  | nil => rfl
  | cons x t ih =>
    rw [List.map_cons]
    simp only [hextetsM]
    rw [hextet_to_u16_toHex x (h x (by simp))]
    rw [ih (fun z hz => h z (by simp [hz]))]

set_option maxHeartbeats 1000000 in
theorem v6Fold_ok (ts : List (List Char)) : ∀ (hs : List Nat) (acc : Nat),
    hextetsM ts = .ok hs →
    acc * 2 ^ (16 * ts.length) + beVal 16 hs < 2 ^ 128 →
    AddrV6.v6Fold ts acc = .ok (acc * 2 ^ (16 * ts.length) + beVal 16 hs) := by
  induction ts with
  | nil =>
    intro hs acc hm hb
    simp only [hextetsM, Except.ok.injEq] at hm
    subst hm
    simp [AddrV6.v6Fold, beVal_nil]
  | cons t ts' ih =>
    intro hs acc hm hb
    simp only [hextetsM] at hm
    cases hx : AddrV6.hextet_to_u16 t with
    | error e => rw [hx] at hm; exact absurd hm (by simp)
    | ok y =>
      cases ht : hextetsM ts' with
      | error e => rw [hx, ht] at hm; exact absurd hm (by simp)
      | ok ys =>
        rw [hx, ht] at hm
        simp only [Except.ok.injEq] at hm
        subst hm
        have hy : y < 2 ^ 16 := hextet_to_u16_lt hx
        have hlen : ys.length = ts'.length := hextetsM_length ht
        rw [beVal_cons, hlen] at hb
        simp only [List.length_cons] at hb
        have hstep : acc * 2 ^ 16 + y < 2 ^ 128 := by
          have h1 : acc * 2 ^ 16 ≤ acc * 2 ^ (16 * (ts'.length + 1)) := by
            apply Nat.mul_le_mul_left
            exact Nat.pow_le_pow_right (by norm_num) (by omega)
          have h2 : y ≤ y * 2 ^ (16 * ts'.length) :=
            Nat.le_mul_of_pos_right _ (Nat.pos_pow_of_pos _ (by norm_num))
          omega
        simp only [AddrV6.v6Fold, hx]
        have hsh : (acc <<< 16) % 2 ^ 128 = acc * 2 ^ 16 := by
          rw [Nat.shiftLeft_eq]
          exact Nat.mod_eq_of_lt (by omega)
        rw [hsh]
        rw [or_disjoint acc y 16 hy]
        have := ih ys (acc * 2 ^ 16 + y) ht
          (by
            rw [show (acc * 2 ^ 16 + y) * 2 ^ (16 * ts'.length) + beVal 16 ys =
              acc * (2 ^ 16 * 2 ^ (16 * ts'.length)) +
                (y * 2 ^ (16 * ts'.length) + beVal 16 ys) from by ring]
            rw [← pow_add]
            rw [show 16 + 16 * ts'.length = 16 * (ts'.length + 1) from by ring]
            exact hb)
        rw [this]
        rw [beVal_cons, hlen]
        simp only [List.length_cons]
        rw [show 16 * (ts'.length + 1) = 16 * ts'.length + 16 from by ring, pow_add]
        ring

set_option maxHeartbeats 1000000 in
theorem assemble_ok (pfxT sfxT : List (List Char)) (pv sv : List Nat)
    (hp : hextetsM pfxT = .ok pv) (hs : hextetsM sfxT = .ok sv)
    (hlen : pv.length + sv.length ≤ 8) :
    AddrV6.assemble pfxT sfxT =
      .ok (beVal 16 pv * 2 ^ (16 * (8 - pv.length)) + beVal 16 sv) := by
  have hplen : pfxT.length = pv.length := (hextetsM_length hp).symm
  have hslen : sfxT.length = sv.length := (hextetsM_length hs).symm
  have hpv : beVal 16 pv < 2 ^ (16 * pv.length) := beVal_lt _ _ (hextetsM_lt hp)
  have hsv : beVal 16 sv < 2 ^ (16 * sv.length) := beVal_lt _ _ (hextetsM_lt hs)
  have hple : (2 : Nat) ^ (16 * pv.length) ≤ 2 ^ 128 :=
    Nat.pow_le_pow_right (by norm_num) (by omega)
  have hsle : (2 : Nat) ^ (16 * sv.length) ≤ 2 ^ 128 :=
    Nat.pow_le_pow_right (by norm_num) (by omega)
  have hpfold := v6Fold_ok pfxT pv 0 hp (by simpa using lt_of_lt_of_le hpv hple)
  have hsfold := v6Fold_ok sfxT sv 0 hs (by simpa using lt_of_lt_of_le hsv hsle)
  simp only [Nat.zero_mul, Nat.zero_add] at hpfold hsfold
  unfold AddrV6.assemble
  rw [hpfold, hsfold]
  by_cases hp0 : pfxT.length > 0
  · simp only [hp0, if_true]
    have hsplit : 16 * pv.length + 16 * (8 - pv.length) = 128 := by omega
    have hshift : beVal 16 pv * 2 ^ (16 * (8 - pv.length)) < 2 ^ 128 := by
      calc beVal 16 pv * 2 ^ (16 * (8 - pv.length))
          < 2 ^ (16 * pv.length) * 2 ^ (16 * (8 - pv.length)) :=
            mul_lt_mul_of_pos_right hpv (Nat.pos_pow_of_pos _ (by norm_num))
        _ = 2 ^ 128 := by rw [← pow_add, hsplit]
    have hsh : (beVal 16 pv <<< (16 * (8 - pfxT.length))) % 2 ^ 128 =
        beVal 16 pv * 2 ^ (16 * (8 - pv.length)) := by
      rw [Nat.shiftLeft_eq, hplen]
      exact Nat.mod_eq_of_lt hshift
    rw [hsh]
    have hor : beVal 16 sv ||| beVal 16 pv * 2 ^ (16 * (8 - pv.length)) =
        beVal 16 pv * 2 ^ (16 * (8 - pv.length)) + beVal 16 sv := by
      rw [Nat.lor_comm]
      apply or_disjoint
      calc beVal 16 sv < 2 ^ (16 * sv.length) := hsv
        _ ≤ 2 ^ (16 * (8 - pv.length)) :=
          Nat.pow_le_pow_right (by norm_num) (by omega)
    rw [hor]
  · simp only [hp0, if_false]
    have : pv.length = 0 := by omega
    rw [List.length_eq_zero] at this
    subst this
    simp [beVal_nil]

/-! Helpers about `List.intercalate` and the V4 character loop. -/

theorem intercalate_cons (s x : List Char) (l : List (List Char)) (h : l ≠ []) :
    List.intercalate s (x :: l) = x ++ s ++ List.intercalate s l := by
  cases l with
  | nil => exact absurd rfl h
  | cons y zs =>
    simp [List.intercalate, List.intersperse_cons_cons]

theorem intercalate_singleton (s x : List Char) : List.intercalate s [x] = x := by
  simp [List.intercalate]

theorem v4Loop_no_dot (x : List Char) : ∀ (r buf : List Char) (res cnt : Nat),
    '.' ∉ x →
    AddrV4.v4Loop (x ++ r) buf res cnt = AddrV4.v4Loop r (buf ++ x) res cnt := by
  induction x with
  | nil =>
    intro r buf res cnt _
    simp
  | cons c t ih =>
    intro r buf res cnt hdot
    have hc : ¬(c = '.') := by
      intro h
      exact hdot (by simp [h])
    simp only [List.cons_append, AddrV4.v4Loop, List.append_eq]
    rw [if_neg hc]
    rw [ih r (buf ++ [c]) res cnt (fun h => hdot (by simp [h]))]
    rw [List.append_assoc]
    rfl

theorem v4Loop_reach_error (comps1 : List (List Char)) :
    ∀ (bad : List Char) (comps2 : List (List Char)) (res cnt : Nat) (e : Error),
    cnt + comps1.length ≤ 3 →
    (∀ c ∈ comps1, ∃ m, AddrV4.component_to_u8 c = .ok m) →
    '.' ∉ bad →
    AddrV4.component_to_u8 bad = .error e →
    AddrV4.v4Loop (List.intercalate ['.'] (comps1 ++ bad :: comps2)) [] res cnt =
      .error e := by
  induction comps1 with
  | nil =>
    intro bad comps2 res cnt e hcnt _ hdot hbad
    simp only [List.nil_append, List.length_nil] at hcnt ⊢
    cases comps2 with
    | nil =>
      rw [intercalate_singleton]
      have := v4Loop_no_dot bad [] [] res cnt hdot
      rw [List.append_nil] at this
      rw [this]
      simp only [AddrV4.v4Loop]
      rw [if_neg (by omega)]
      simp only [List.nil_append]
      rw [hbad]
    | cons c2 r2 =>
      rw [intercalate_cons _ _ _ (by simp)]
      rw [List.append_assoc]
      rw [v4Loop_no_dot bad _ [] res cnt hdot]
      simp only [List.nil_append, List.singleton_append, AddrV4.v4Loop,
        List.append_eq, if_true]
      rw [if_neg (by omega)]
      rw [hbad]
  | cons c1 t1 ih =>
    intro bad comps2 res cnt e hcnt hvalid hdot hbad
    obtain ⟨m, hm⟩ := hvalid c1 (by simp)
    have hdot1 : '.' ∉ c1 := component_to_u8_ok_no_dot hm
    simp only [List.length_cons] at hcnt
    rw [List.cons_append]
    rw [intercalate_cons _ _ _ (by simp)]
    rw [List.append_assoc]
    rw [v4Loop_no_dot c1 _ [] res cnt hdot1]
    simp only [List.nil_append, List.singleton_append, AddrV4.v4Loop,
      List.append_eq, if_true]
    rw [if_neg (by omega)]
    rw [hm]
    exact ih bad comps2 _ (cnt + 1) e (by omega)
      (fun c hc => hvalid c (by simp [hc])) hdot hbad

/-! Dispatch lemmas for `AddrV6::from_string` over the shape of the split. -/

theorem from_string_v6_two_parts (addr a b : List Char) (h : splitCC addr = [a, b]) :
    AddrV6.from_string addr =
      (if ((splitC a).filter (fun s => s.length > 0)).length +
          ((splitC b).filter (fun s => s.length > 0)).length ≥ 8 then
        .error .Overflow
      else
        AddrV6.assemble ((splitC a).filter (fun s => s.length > 0))
          ((splitC b).filter (fun s => s.length > 0))) := by
  unfold AddrV6.from_string
  rw [h]
  rfl

theorem from_string_v6_one_part (addr a : List Char) (h : splitCC addr = [a]) :
    AddrV6.from_string addr =
      (if ((splitC a).filter (fun s => s.length > 0)).length < 8 then
        .error .MissingComponents
      else if ((splitC a).filter (fun s => s.length > 0)).length > 8 then
        .error .Overflow
      else
        AddrV6.assemble [] ((splitC a).filter (fun s => s.length > 0))) := by
  unfold AddrV6.from_string
  rw [h]
  rfl

theorem from_string_v6_many_parts (addr : List Char)
    (h : 3 ≤ (splitCC addr).length) :
    AddrV6.from_string addr = .error .DoubleCompression := by
  unfold AddrV6.from_string
  cases hs : splitCC addr with
  | nil => simp [hs] at h
  | cons a r =>
    cases r with
    | nil => simp [hs] at h
    | cons b r2 =>
      cases r2 with
      | nil => simp [hs] at h
      | cons c r3 => rfl

/-! Claim theorems. -/

/-- C8: the all-zero 128-bit value formats exactly as `"::"`, and parsing
`"::"` yields the all-zero value. -/
theorem claim_C8 :
    AddrV6.to_string 0 = "::".toList ∧
    AddrV6.from_string ("::".toList) = .ok 0 := by
  decide

/-- C9: V6 parsing discards empty hextet tokens produced by splitting on
`':'`, so stray single colons are tolerated: leading/trailing single colons
and `":::"`/`"1:::2"` all parse, yielding the same values as the clean
spellings. -/
theorem claim_C9 :
    AddrV6.from_string (":1:2:3:4:5:6:7:8".toList) =
      .ok 0x00010002000300040005000600070008 ∧
    AddrV6.from_string ("1:2:3:4:5:6:7:8:".toList) =
      .ok 0x00010002000300040005000600070008 ∧
    AddrV6.from_string ("1:2:3:4:5:6:7:8".toList) =
      .ok 0x00010002000300040005000600070008 ∧
    AddrV6.from_string ("1:::2".toList) = .ok 0x00010000000000000000000000000002 ∧
    AddrV6.from_string ("1::2".toList) = .ok 0x00010000000000000000000000000002 ∧
    AddrV6.from_string (":::".toList) = .ok 0 := by
  decide

/-- C5: whenever splitting on `"::"` yields 3 or more parts (i.e. `"::"`
occurs at least twice), V6 parsing fails with `DoubleCompression`; and
concretely `"1::2::3"` is `DoubleCompression` while the
single-compression-but-full `"::1:2:3:4:5:6:7:8"` is `Overflow`. -/
theorem claim_C5 :
    (∀ s : List Char, 3 ≤ (splitCC s).length →
      AddrV6.from_string s = .error .DoubleCompression) ∧
    AddrV6.from_string ("1::2::3".toList) = .error .DoubleCompression ∧
    AddrV6.from_string ("::1:2:3:4:5:6:7:8".toList) = .error .Overflow :=
  ⟨from_string_v6_many_parts, by decide, by decide⟩

/-- Witness for C5 at the concrete input `"1::2::3"`. -/
theorem claim_C5_witness :
    3 ≤ (splitCC ("1::2::3".toList)).length ∧
    AddrV6.from_string ("1::2::3".toList) = .error .DoubleCompression :=
  ⟨by decide, claim_C5.1 _ (by decide)⟩

/-- C10: length-based overflow checks precede character validation: a V4
decimal component longer than 3 characters after stripping leading zeros is
`Overflow` whatever its characters, as is a V6 hextet token longer than 4
characters; concretely `"-192.168.0.1"` and `"12345g::"` are `Overflow`. -/
theorem claim_C10 :
    (∀ s : List Char, 3 < (s.dropWhile (fun ch => ch = '0')).length →
      AddrV4.component_to_u8 s = .error .Overflow) ∧
    (∀ t : List Char, 4 < t.length → AddrV6.hextet_to_u16 t = .error .Overflow) ∧
    AddrV4.from_string ("-192.168.0.1".toList) = .error .Overflow ∧
    AddrV6.from_string ("12345g::".toList) = .error .Overflow :=
  ⟨fun s h => component_to_u8_long s h, fun t h => hextet_to_u16_long t h,
    by decide, by decide⟩

/-- Witness for C10 at the concrete components `"-192"` and `"12345g"`. -/
theorem claim_C10_witness :
    (3 < (("-192".toList).dropWhile (fun ch => ch = '0')).length ∧
      AddrV4.component_to_u8 ("-192".toList) = .error .Overflow) ∧
    (4 < ("12345g".toList).length ∧
      AddrV6.hextet_to_u16 ("12345g".toList) = .error .Overflow) :=
  ⟨⟨by decide, claim_C10.1 _ (by decide)⟩,
    ⟨by decide, claim_C10.2.1 _ (by decide)⟩⟩

/-- C7: V4 decimal boundary failures: `"256.0.0.0"` overflows, `"127.0.0"`
misses components, `"127..0.0.1"` has an empty (null) component, a 5th
component or trailing dot overflows; and out-of-range component values are
never clamped: any all-digit component with value above 255 is `Overflow`. -/
theorem claim_C7 :
    AddrV4.from_string ("256.0.0.0".toList) = .error .Overflow ∧
    AddrV4.from_string ("127.0.0".toList) = .error .MissingComponents ∧
    AddrV4.from_string ("127..0.0.1".toList) = .error .NullComponent ∧
    AddrV4.from_string ("127.0.0.1.2".toList) = .error .Overflow ∧
    AddrV4.from_string ("127.0.0.1.".toList) = .error .Overflow ∧
    (∀ s : List Char, (∀ c ∈ s, 48 ≤ c.toNat ∧ c.toNat ≤ 57) → s ≠ [] →
      255 < decVal s → AddrV4.component_to_u8 s = .error .Overflow) :=
  ⟨by decide, by decide, by decide, by decide, by decide,
    fun s hd hne hv => component_to_u8_overflow_val s hd hne hv⟩

/-- Witness for C7's never-clamp clause at the concrete component `"256"`. -/
theorem claim_C7_witness :
    (∀ c ∈ ("256".toList), 48 ≤ c.toNat ∧ c.toNat ≤ 57) ∧
    ("256".toList) ≠ [] ∧ 255 < decVal ("256".toList) ∧
    AddrV4.component_to_u8 ("256".toList) = .error .Overflow :=
  ⟨by decide, by decide, by decide,
    claim_C7.2.2.2.2.2 _ (by decide) (by decide) (by decide)⟩

/-- C4 counterexample: the input `"-192.168.0.1"` has a component containing
the non-digit `'-'`, yet V4 decimal parsing fails with `Overflow`, not
`IllegalChar` (the component-length overflow check runs first). -/
theorem claim_C4_counterexample :
    ('-' ∈ "-192".toList ∧ ('-'.toNat < 48 ∨ 57 < '-'.toNat)) ∧
    AddrV4.from_string ("-192.168.0.1".toList) = .error .Overflow ∧
    AddrV4.from_string ("-192.168.0.1".toList) ≠ .error .IllegalChar := by
  decide

/-- C4 (amended): a non-digit character inside a dot-separated component
yields `IllegalChar` provided the offending component is among the first
four, its length after stripping leading zeros is at most 3 (otherwise the
`Overflow` pre-check fires first), and every earlier component is a valid
octet. -/
theorem claim_C4 (comps1 : List (List Char)) (bad : List Char)
    (comps2 : List (List Char))
    (hlen1 : comps1.length ≤ 3)
    (hvalid : ∀ c ∈ comps1, ∃ m, AddrV4.component_to_u8 c = .ok m)
    (hdot : '.' ∉ bad)
    (hstripped : (bad.dropWhile (fun ch => ch = '0')).length ≤ 3)
    (hbad : ∃ c ∈ bad, c.toNat < 48 ∨ 57 < c.toNat) :
    AddrV4.from_string (List.intercalate ['.'] (comps1 ++ bad :: comps2)) =
      .error .IllegalChar := by
  unfold AddrV4.from_string
  exact v4Loop_reach_error comps1 bad comps2 0 0 .IllegalChar (by omega) hvalid hdot
    (component_to_u8_illegal bad hstripped hbad)

/-- Witness for C4 (amended) at the concrete input `"-92.168.0.1"`, which
fails with `IllegalChar` as the specification states. -/
theorem claim_C4_witness :
    AddrV4.from_string ("-92.168.0.1".toList) = .error .IllegalChar := by
  have h := claim_C4 [] ("-92".toList) ["168".toList, "0".toList, "1".toList]
    (by decide) (by intro c hc; exact absurd hc (List.not_mem_nil c))
    (by decide) (by decide) ⟨'-', by decide, by decide⟩
  have heq : List.intercalate ['.']
      ([] ++ ("-92".toList) :: ["168".toList, "0".toList, "1".toList]) =
      "-92.168.0.1".toList := by decide
  rw [heq] at h
  exact h

set_option maxHeartbeats 1000000 in
theorem hexLoop_spec (s : List Char) : ∀ (cnt irepr : Nat),
    cnt ≤ 8 → irepr < 2 ^ (4 * cnt) →
    AddrV4.hexLoop s cnt irepr =
      (if cnt + (s.filter (fun c => (AddrV4.hexDigit? c).isSome)).length = 8 then
        .ok (irepr * 16 ^ (s.filter (fun c => (AddrV4.hexDigit? c).isSome)).length +
          hexVal (s.filter (fun c => (AddrV4.hexDigit? c).isSome)))
      else if 8 < cnt + (s.filter (fun c => (AddrV4.hexDigit? c).isSome)).length then
        .error .Overflow
      else .error .MissingComponents) := by
  induction s with
  | nil =>
    intro cnt irepr hcnt hirepr
    simp only [List.filter_nil, List.length_nil, Nat.add_zero, AddrV4.hexLoop]
    by_cases h8 : cnt = 8
    · rw [if_pos h8, if_pos h8]
      simp [hexVal]
    · rw [if_neg h8, if_neg h8, if_neg (by omega)]
  | cons c t ih =>
    intro cnt irepr hcnt hirepr
    cases hdig : AddrV4.hexDigit? c with
    | none =>
      have hfilter : (c :: t).filter (fun c => (AddrV4.hexDigit? c).isSome) =
          t.filter (fun c => (AddrV4.hexDigit? c).isSome) := by
        rw [List.filter_cons]
        simp [hdig]
      simp only [AddrV4.hexLoop, hdig]
      rw [hfilter]
      exact ih cnt irepr hcnt hirepr
    | some d =>
      have hfilter : (c :: t).filter (fun c => (AddrV4.hexDigit? c).isSome) =
          c :: t.filter (fun c => (AddrV4.hexDigit? c).isSome) := by
        rw [List.filter_cons]
        simp [hdig]
      have hd16 : d < 16 := hexDigit?_lt hdig
      simp only [AddrV4.hexLoop, hdig]
      rw [hfilter]
      simp only [List.length_cons]
      by_cases hge : cnt ≥ 8
      · rw [if_pos hge]
        rw [if_neg (show ¬(cnt +
            ((t.filter (fun c => (AddrV4.hexDigit? c).isSome)).length + 1) = 8) from by
          omega)]
        rw [if_pos (show 8 < cnt +
            ((t.filter (fun c => (AddrV4.hexDigit? c).isSome)).length + 1) from by
          omega)]
      · rw [if_neg hge]
        have hsh : (irepr <<< 4) % 2 ^ 32 = irepr * 16 := by
          rw [Nat.shiftLeft_eq]
          rw [show (2 : Nat) ^ 4 = 16 from by norm_num]
          apply Nat.mod_eq_of_lt
          calc irepr * 16 < 2 ^ (4 * cnt) * 16 :=
                mul_lt_mul_of_pos_right hirepr (by norm_num)
            _ = 2 ^ (4 * cnt + 4) := by rw [pow_add]; norm_num
            _ ≤ 2 ^ 32 := Nat.pow_le_pow_right (by norm_num) (by omega)
        rw [hsh]
        have hor : irepr * 16 ||| d = irepr * 16 + d := by
          have := or_disjoint irepr d 4
            (by rw [show (2 : Nat) ^ 4 = 16 from by norm_num]; omega)
          rw [show (2 : Nat) ^ 4 = 16 from by norm_num] at this
          exact this
        rw [hor]
        have hnext : irepr * 16 + d < 2 ^ (4 * (cnt + 1)) := by
          have h1 : irepr * 16 < 2 ^ (4 * cnt) * 16 :=
            mul_lt_mul_of_pos_right hirepr (by norm_num)
          have h2 : 2 ^ (4 * cnt) * 16 = 2 ^ (4 * (cnt + 1)) := by
            rw [show 4 * (cnt + 1) = 4 * cnt + 4 from by ring, pow_add]
            norm_num
          omega
        rw [ih (cnt + 1) (irepr * 16 + d) (by omega) hnext]
        by_cases h8 :
            cnt + 1 + (t.filter (fun c => (AddrV4.hexDigit? c).isSome)).length = 8
        · rw [if_pos h8]
          rw [if_pos (show cnt +
              ((t.filter (fun c => (AddrV4.hexDigit? c).isSome)).length + 1) = 8 from by
            omega)]
          rw [hexVal_cons]
          have hcv : hexCharVal c = d := by
            unfold hexCharVal
            rw [hdig]
            rfl
          rw [hcv]
          congr 1
          ring
        · rw [if_neg h8]
          rw [if_neg (show ¬(cnt +
              ((t.filter (fun c => (AddrV4.hexDigit? c).isSome)).length + 1) = 8) from by
            omega)]
          by_cases hov :
              8 < cnt + 1 + (t.filter (fun c => (AddrV4.hexDigit? c).isSome)).length
          · rw [if_pos hov]
            rw [if_pos (show 8 < cnt +
                ((t.filter (fun c => (AddrV4.hexDigit? c).isSome)).length + 1) from by
              omega)]
          · rw [if_neg hov]
            rw [if_neg (show ¬(8 < cnt +
                ((t.filter (fun c => (AddrV4.hexDigit? c).isSome)).length + 1)) from by
              omega)]

/-- C6: V4 hex parsing ignores all non-hex characters and succeeds exactly
when 8 hex digits remain, yielding their big-endian value; more digits is
`Overflow`, fewer is `MissingComponents`. Concretely `"c0:a8:01:02"` and
`"c0-a8-01-02"` parse to `0xC0A80102`, the same value as the decimal parse
of `"192.168.1.2"`. -/
theorem claim_C6 :
    (∀ s : List Char,
      ((s.filter (fun c => (AddrV4.hexDigit? c).isSome)).length = 8 →
        AddrV4.from_hex s =
          .ok (hexVal (s.filter (fun c => (AddrV4.hexDigit? c).isSome)))) ∧
      (8 < (s.filter (fun c => (AddrV4.hexDigit? c).isSome)).length →
        AddrV4.from_hex s = .error .Overflow) ∧
      ((s.filter (fun c => (AddrV4.hexDigit? c).isSome)).length < 8 →
        AddrV4.from_hex s = .error .MissingComponents)) ∧
    AddrV4.from_hex ("c0:a8:01:02".toList) = .ok 0xc0a80102 ∧
    AddrV4.from_hex ("c0-a8-01-02".toList) = .ok 0xc0a80102 ∧
    AddrV4.from_string ("192.168.1.2".toList) = .ok 0xc0a80102 := by
  refine ⟨fun s => ?_, by decide, by decide, by decide⟩
  have hspec := hexLoop_spec s 0 0 (by omega) (by norm_num)
  unfold AddrV4.from_hex
  rw [hspec]
  simp only [Nat.zero_add]
  refine ⟨fun h8 => ?_, fun hov => ?_, fun hmiss => ?_⟩
  · rw [if_pos h8]
    simp
  · rw [if_neg (by omega), if_pos hov]
  · rw [if_neg (by omega), if_neg (by omega)]

/-- Witness for C6's universal clause at the concrete input `"c0a80102"`. -/
theorem claim_C6_witness :
    (("c0a80102".toList.filter (fun c => (AddrV4.hexDigit? c).isSome)).length = 8) ∧
    AddrV4.from_hex ("c0a80102".toList) =
      .ok (hexVal ("c0a80102".toList.filter (fun c => (AddrV4.hexDigit? c).isSome))) :=
  ⟨by decide, (claim_C6.1 _).1 (by decide)⟩

/-- C3: for an input whose `"::"`-split yields exactly two parts, with all
hextet tokens valid and parsing to values `pv` (prefix) and `sv` (suffix):
when `pv.length + sv.length < 8` the parse succeeds with the value assembled
big-endian as prefix hextets, then `8 - p - s` implicit zero groups, then
suffix hextets; when `pv.length + sv.length ≥ 8` the parse fails with
`Overflow`. -/
theorem claim_C3 (addr a b : List Char) (pv sv : List Nat)
    (hsplit : splitCC addr = [a, b])
    (hp : hextetsM ((splitC a).filter (fun s => s.length > 0)) = .ok pv)
    (hs : hextetsM ((splitC b).filter (fun s => s.length > 0)) = .ok sv) :
    (pv.length + sv.length < 8 →
      AddrV6.from_string addr =
        .ok (beVal 16 (pv ++ List.replicate (8 - pv.length - sv.length) 0 ++ sv))) ∧
    (8 ≤ pv.length + sv.length → AddrV6.from_string addr = .error .Overflow) := by
  have hplen : ((splitC a).filter (fun s => s.length > 0)).length = pv.length :=
    (hextetsM_length hp).symm
  have hslen : ((splitC b).filter (fun s => s.length > 0)).length = sv.length :=
    (hextetsM_length hs).symm
  rw [from_string_v6_two_parts addr a b hsplit]
  constructor
  · intro hlt
    rw [if_neg (by omega)]
    rw [assemble_ok _ _ pv sv hp hs (by omega)]
    congr 1
    rw [List.append_assoc, beVal_append, beVal_append]
    have hz : beVal 16 (List.replicate (8 - pv.length - sv.length) 0) = 0 :=
      beVal_zeros _ _ (fun x hx => List.eq_of_mem_replicate hx)
    rw [hz]
    simp only [Nat.zero_mul, Nat.zero_add, List.length_append, List.length_replicate]
    have hlen8 : 8 - pv.length - sv.length + sv.length = 8 - pv.length := by omega
    rw [hlen8]
  · intro hge
    rw [if_pos (by omega)]

/-- Witness for C3 at the concrete inputs `"1:2::3:4"` (success case) and
`"1:2:3:4::5:6:7:8"` (overflow case). -/
theorem claim_C3_witness :
    AddrV6.from_string ("1:2::3:4".toList) =
      .ok (beVal 16 ([1, 2] ++ List.replicate 4 0 ++ [3, 4])) ∧
    AddrV6.from_string ("1:2:3:4::5:6:7:8".toList) = .error .Overflow := by
  constructor
  · have h := (claim_C3 ("1:2::3:4".toList) ("1:2".toList) ("3:4".toList)
      [1, 2] [3, 4] (by decide) (by decide) (by decide)).1 (by decide)
    simpa using h
  · exact (claim_C3 ("1:2:3:4::5:6:7:8".toList) ("1:2:3:4".toList)
      ("5:6:7:8".toList) [1, 2, 3, 4] [5, 6, 7, 8]
      (by decide) (by decide) (by decide)).2 (by decide)

/-! Zero-run selection: the code's dp/max-scan agrees with the
specification's leftmost-longest rule, established by checking all 256
zero/nonzero masks of the eight hextets. -/

theorem dpFrom_eq_dpB : ∀ (l : List Nat) (prev : Nat),
    AddrV6.dpFrom prev l = dpB prev (l.map (fun h => h == 0)) := by
  intro l
  induction l with
  | nil => intro prev; rfl
  | cons h t ih =>
    intro prev
    simp only [List.map_cons, AddrV6.dpFrom, dpB]
    by_cases h0 : h = 0
    · simp [h0, ih]
    · simp [h0, ih]

set_option maxRecDepth 8000 in
theorem selAgree_all : ∀ n < 256, selAgree (maskBits n) = true := by decide

set_option maxRecDepth 8000 in
theorem runFacts_all : ∀ n < 256, runFacts (maskBits n) = true := by decide

set_option maxRecDepth 8000 in
theorem mask_eq : ∀ a b c d e f g h : Bool,
    maskBits (a.toNat + 2 * b.toNat + 4 * c.toNat + 8 * d.toNat + 16 * e.toNat +
      32 * f.toNat + 64 * g.toNat + 128 * h.toNat) = [a, b, c, d, e, f, g, h] ∧
    a.toNat + 2 * b.toNat + 4 * c.toNat + 8 * d.toNat + 16 * e.toNat +
      32 * f.toNat + 64 * g.toNat + 128 * h.toNat < 256 := by
  decide

theorem mask_surj : ∀ (m : List Bool), m.length = 8 → ∃ n, n < 256 ∧ maskBits n = m := by
  intro m hm
  rcases m with _ | ⟨a, m⟩
  · simp at hm
  rcases m with _ | ⟨b, m⟩
  · simp at hm
  rcases m with _ | ⟨c, m⟩
  · simp at hm
  rcases m with _ | ⟨d, m⟩
  · simp at hm
  rcases m with _ | ⟨e, m⟩
  · simp at hm
  rcases m with _ | ⟨f, m⟩
  · simp at hm
  rcases m with _ | ⟨g, m⟩
  · simp at hm
  rcases m with _ | ⟨h, m⟩
  · simp at hm
  rcases m with _ | ⟨i, m⟩
  · exact ⟨_, (mask_eq a b c d e f g h).2, (mask_eq a b c d e f g h).1⟩
  · simp at hm

theorem sel_facts (m : List Bool) (hm : m.length = 8) :
    selAgree m = true ∧ runFacts m = true := by
  obtain ⟨n, hn, rfl⟩ := mask_surj m hm
  exact ⟨selAgree_all n hn, runFacts_all n hn⟩

theorem specSel_of_gt1 (m : List Bool) (hm : m.length = 8)
    (h : 1 < (codeSel m).1) :
    specSel m = some ((codeSel m).2 + 1 - (codeSel m).1, (codeSel m).1) := by
  have hs := (sel_facts m hm).1
  simp only [selAgree] at hs
  rw [if_pos h] at hs
  simpa using hs

theorem specSel_of_le1 (m : List Bool) (hm : m.length = 8)
    (h : ¬ 1 < (codeSel m).1) : specSel m = none := by
  have hs := (sel_facts m hm).1
  simp only [selAgree] at hs
  rw [if_neg h] at hs
  simpa using hs

theorem codeSel_run (m : List Bool) (hm : m.length = 8)
    (h : 1 < (codeSel m).1) :
    (codeSel m).2 < 8 ∧ (codeSel m).1 ≤ (codeSel m).2 + 1 ∧
    ∀ i, (codeSel m).2 + 1 - (codeSel m).1 ≤ i → i ≤ (codeSel m).2 →
      m.getD i false = true := by
  have hr := (sel_facts m hm).2
  simp only [runFacts, Bool.or_eq_true, Bool.not_eq_true', Bool.and_eq_true,
    decide_eq_true_eq, decide_eq_false_iff_not, List.all_eq_true] at hr
  rcases hr with hr | ⟨⟨hlt, hle⟩, hall⟩
  · exact absurd h (by simp [hr])
  · refine ⟨hlt, hle, fun i h1 h2 => ?_⟩
    exact hall i (List.mem_range'_1.mpr ⟨h1, by omega⟩)

/-! Hextet extraction facts. -/

theorem hextetAt_eq (v i : Nat) :
    AddrV6.hextetAt v i = v / 2 ^ (16 * (7 - i)) % 2 ^ 16 := by
  unfold AddrV6.hextetAt
  rw [Nat.shiftRight_eq_div_pow]
  rw [show (0xffff : Nat) = 2 ^ 16 - 1 from by norm_num]
  rw [Nat.and_pow_two_sub_one_eq_mod]

theorem hextetAt_lt (v i : Nat) : AddrV6.hextetAt v i < 2 ^ 16 := by
  rw [hextetAt_eq]
  exact Nat.mod_lt _ (by norm_num)

theorem hextets_recompose (v : Nat) (hv : v < 2 ^ 128) :
    beVal 16 ((List.range 8).map (AddrV6.hextetAt v)) = v := by
  have h := limb_recompose 16 8 v (by simpa using hv)
  have hmap : (List.range 8).map (AddrV6.hextetAt v) =
      (List.range 8).map (fun i => v / 2 ^ (16 * (8 - 1 - i)) % 2 ^ 16) := by
    apply List.map_congr_left
    intro i _
    rw [hextetAt_eq]
  rw [hmap]
  exact h

theorem mask_getD (v i : Nat) (hi : i < 8) :
    ((((List.range 8).map (AddrV6.hextetAt v)).map (fun h => h == 0)).getD i false = true) ↔
      AddrV6.hextetAt v i = 0 := by
  rw [List.map_map]
  have hlen : ((List.range 8).map ((fun h => h == 0) ∘ AddrV6.hextetAt v)).length = 8 := by
    simp
  rw [List.getD_eq_getElem _ _ (by omega)]
  rw [List.getElem_map, List.getElem_range]
  simp [Function.comp]

/-! Splitting lemmas: how `splitC` / `splitCC` act on strings built by
`List.intercalate [':']` from colon-free pieces. -/

theorem splitC_ne_nil : ∀ s : List Char, splitC s ≠ [] := by
  intro s
  induction s with
  | nil => simp [splitC]
  | cons c t ih =>
    rw [splitC.eq_def]
    split
    · simp
    · simp
    · split
      · simp
      · simp

theorem splitC_cons_colon (t : List Char) : splitC (':' :: t) = [] :: splitC t := rfl

theorem splitC_cons_ne (c : Char) (t h : List Char) (r : List (List Char))
    (hc : c ≠ ':') (ht : splitC t = h :: r) : splitC (c :: t) = (c :: h) :: r := by
  rw [splitC.eq_def]
  split
  · rename_i heq
    exact absurd heq (by simp)
  · rename_i t' heq
    rw [List.cons.injEq] at heq
    exact absurd heq.1 hc
  · rename_i c' t' heq
    rw [List.cons.injEq] at heq
    obtain ⟨rfl, rfl⟩ := heq
    rw [ht]

theorem splitC_no_colon : ∀ s : List Char, ':' ∉ s → splitC s = [s] := by
  intro s
  induction s with
  | nil => intro _; rfl
  | cons c t ih =>
    intro hc
    have hc1 : c ≠ ':' := fun h => hc (by simp [h])
    have ht : splitC t = [t] := ih (fun h => hc (by simp [h]))
    exact splitC_cons_ne c t t [] hc1 ht

theorem splitC_append_colon : ∀ (x : List Char), ':' ∉ x →
    ∀ rest, splitC (x ++ ':' :: rest) = x :: splitC rest := by
  intro x
  induction x with
  | nil =>
    intro _ rest
    simp only [List.nil_append]
    rfl
  | cons c t ih =>
    intro hc rest
    have hc1 : c ≠ ':' := fun h => hc (by simp [h])
    have ht := ih (fun h => hc (by simp [h])) rest
    rw [List.cons_append]
    exact splitC_cons_ne c _ t (splitC rest) hc1 ht

theorem splitC_intercalate : ∀ (L : List (List Char)), (∀ x ∈ L, ':' ∉ x) → L ≠ [] →
    splitC (List.intercalate [':'] L) = L := by
  intro L
  induction L with
  | nil => intro _ h; exact absurd rfl h
  | cons x l ih =>
    intro hmem _
    cases l with
    | nil =>
      rw [intercalate_singleton]
      exact splitC_no_colon x (hmem x (by simp))
    | cons y zs =>
      rw [intercalate_cons _ _ _ (by simp)]
      rw [List.append_assoc, List.singleton_append]
      rw [splitC_append_colon x (hmem x (by simp))]
      rw [ih (fun z hz => hmem z (by simp [hz])) (by simp)]

theorem hasCC_nil : hasCC [] = false := rfl

theorem hasCC_cons_ne (c : Char) (t : List Char)
    (hcc : ¬(c = ':' ∧ t.head? = some ':')) : hasCC (c :: t) = hasCC t := by
  rw [hasCC.eq_def]
  split
  · rename_i rest heq
    rw [List.cons.injEq] at heq
    exact absurd ⟨heq.1, by rw [heq.2]; rfl⟩ hcc
  · rename_i c' t' heq
    rw [List.cons.injEq] at heq
    obtain ⟨rfl, rfl⟩ := heq
    rfl
  · rename_i heq
    exact absurd heq (by simp)

theorem hasCC_no_colon : ∀ s : List Char, ':' ∉ s → hasCC s = false := by
  intro s
  induction s with
  | nil => intro _; rfl
  | cons c t ih =>
    intro hc
    rw [hasCC_cons_ne c t (fun h => hc (by simp [h.1]))]
    exact ih (fun h => hc (by simp [h]))

theorem hasCC_append_colon : ∀ (x : List Char), ':' ∉ x →
    ∀ T : List Char, hasCC T = false → T.head? ≠ some ':' →
    hasCC (x ++ ':' :: T) = false := by
  intro x
  induction x with
  | nil =>
    intro _ T hT hhead
    simp only [List.nil_append]
    rw [hasCC_cons_ne ':' T (fun h => hhead h.2)]
    exact hT
  | cons c t ih =>
    intro hc T hT hhead
    have hc1 : c ≠ ':' := fun h => hc (by simp [h])
    rw [List.cons_append]
    rw [hasCC_cons_ne c _ (fun h => absurd h.1 hc1)]
    exact ih (fun h => hc (by simp [h])) T hT hhead

theorem splitCC_ne_nil : ∀ s : List Char, splitCC s ≠ [] := by
  intro s
  rw [splitCC.eq_def]
  split
  · simp
  · simp
  · split
    · simp
    · simp

theorem splitCC_cons_cc (t : List Char) : splitCC (':' :: ':' :: t) = [] :: splitCC t := rfl

theorem splitCC_cons_ne (c : Char) (t h : List Char) (r : List (List Char))
    (hcc : ¬(c = ':' ∧ t.head? = some ':')) (ht : splitCC t = h :: r) :
    splitCC (c :: t) = (c :: h) :: r := by
  rw [splitCC.eq_def]
  split
  · rename_i heq
    exact absurd heq (by simp)
  · rename_i t' heq
    rw [List.cons.injEq] at heq
    exact absurd ⟨heq.1, by rw [heq.2]; rfl⟩ hcc
  · rename_i c' t' heq
    rw [List.cons.injEq] at heq
    obtain ⟨rfl, rfl⟩ := heq
    rw [ht]

theorem splitCC_no_cc : ∀ s : List Char, hasCC s = false → splitCC s = [s] := by
  intro s
  induction s with
  | nil => intro _; rfl
  | cons c t ih =>
    intro hs
    by_cases hcc : c = ':' ∧ t.head? = some ':'
    · obtain ⟨rfl, hh⟩ := hcc
      cases t with
      | nil => simp at hh
      | cons c2 t2 =>
        simp only [List.head?_cons, Option.some.injEq] at hh
        subst hh
        exact absurd hs (by rw [hasCC.eq_def]; simp)
    · rw [hasCC_cons_ne c t hcc] at hs
      exact splitCC_cons_ne c t t [] hcc (ih hs)

theorem splitCC_marker : ∀ (A : List Char), hasCC A = false →
    A.getLast? ≠ some ':' →
    ∀ B : List Char, splitCC (A ++ ':' :: ':' :: B) = A :: splitCC B := by
  intro A
  induction A with
  | nil =>
    intro _ _ B
    simp only [List.nil_append]
    rfl
  | cons c t ih =>
    intro hcc hlast B
    rw [List.cons_append]
    have hnotcc : ¬(c = ':' ∧ (t ++ ':' :: ':' :: B).head? = some ':') := by
      rintro ⟨rfl, hh⟩
      cases t with
      | nil =>
        simp only [List.getLast?_singleton] at hlast
        exact hlast rfl
      | cons c2 t2 =>
        simp only [List.cons_append, List.head?_cons, Option.some.injEq] at hh
        subst hh
        rw [hasCC.eq_def] at hcc
        simp at hcc
    have hcc2 : ¬(c = ':' ∧ t.head? = some ':') := by
      rintro ⟨rfl, hh⟩
      cases t with
      | nil => simp at hh
      | cons c2 t2 =>
        simp only [List.head?_cons, Option.some.injEq] at hh
        subst hh
        rw [hasCC.eq_def] at hcc
        simp at hcc
    have htcc : hasCC t = false := by
      rw [hasCC_cons_ne c t hcc2] at hcc
      exact hcc
    have htlast : t.getLast? ≠ some ':' := by
      cases t with
      | nil => simp
      | cons c2 t2 =>
        rw [List.getLast?_cons_cons] at hlast
        exact hlast
    have := ih htcc htlast B
    exact splitCC_cons_ne c _ t (splitCC B) hnotcc this

theorem intercalate_nil (s : List Char) : List.intercalate s [] = [] := rfl

theorem intercalate_append_ne (s : List Char) :
    ∀ (A B : List (List Char)), A ≠ [] → B ≠ [] →
    List.intercalate s (A ++ B) =
      List.intercalate s A ++ s ++ List.intercalate s B := by
  intro A
  induction A with
  | nil => intro B hA _; exact absurd rfl hA
  | cons x l ih =>
    intro B hA hB
    cases l with
    | nil =>
      rw [List.singleton_append, intercalate_singleton]
      rw [intercalate_cons _ _ _ hB]
    | cons y zs =>
      rw [List.cons_append]
      rw [intercalate_cons _ _ _ (by simp)]
      rw [intercalate_cons _ _ _ (by simp)]
      rw [ih B (by simp) hB]
      simp [List.append_assoc]

theorem intercalate_middle_empty (A B : List (List Char)) (hB : B ≠ []) :
    List.intercalate [':'] (A ++ [[]] ++ B) =
      List.intercalate [':'] A ++
        (if A = [] then [] else [':']) ++ ':' :: List.intercalate [':'] B := by
  cases A with
  | nil =>
    simp only [List.nil_append, intercalate_nil, if_true]
    rw [List.singleton_append, intercalate_cons _ _ _ hB]
    simp
  | cons x l =>
    rw [if_neg (show x :: l ≠ [] from by simp)]
    rw [List.append_assoc]
    rw [intercalate_append_ne [':'] (x :: l) ([[]] ++ B) (by simp) (by simp)]
    rw [List.singleton_append]
    rw [intercalate_cons _ _ _ hB]
    simp [List.append_assoc]

theorem inter_props : ∀ (L : List (List Char)), L ≠ [] →
    (∀ x ∈ L, x ≠ [] ∧ ':' ∉ x) →
    hasCC (List.intercalate [':'] L) = false ∧
    (List.intercalate [':'] L).head? ≠ some ':' ∧
    (List.intercalate [':'] L).getLast? ≠ some ':' ∧
    List.intercalate [':'] L ≠ [] := by
  intro L
  induction L with
  | nil => intro h _; exact absurd rfl h
  | cons x l ih =>
    intro _ hmem
    obtain ⟨hxne, hxcolon⟩ := hmem x (by simp)
    cases l with
    | nil =>
      rw [intercalate_singleton]
      refine ⟨hasCC_no_colon x hxcolon, ?_, ?_, hxne⟩
      · intro h
        have : ':' ∈ x := by
          cases x with
          | nil => simp at h
          | cons c t =>
            simp only [List.head?_cons, Option.some.injEq] at h
            exact List.mem_cons.mpr (Or.inl h.symm)
        exact hxcolon this
      · intro h
        have : ':' ∈ x := by
          obtain ⟨hne', heq⟩ := List.mem_getLast?_eq_getLast (show ':' ∈ x.getLast? from h)
          rw [heq]
          exact List.getLast_mem hne'
        exact hxcolon this
    | cons y zs =>
      obtain ⟨hcc, hhead, hlast, hne⟩ := ih (by simp) (fun z hz => hmem z (by simp [hz]))
      rw [intercalate_cons _ _ _ (by simp)]
      rw [List.append_assoc, List.singleton_append]
      refine ⟨hasCC_append_colon x hxcolon _ hcc hhead, ?_, ?_, by simp⟩
      · cases hx : x with
        | nil => exact absurd hx hxne
        | cons c t =>
          rw [List.cons_append, List.head?_cons]
          intro h
          simp only [Option.some.injEq] at h
          refine hxcolon ?_
          rw [hx]
          exact List.mem_cons.mpr (Or.inl h.symm)
      · obtain ⟨a, b, hab⟩ := List.exists_cons_of_ne_nil hne
        rw [List.getLast?_append, hab, List.getLast?_cons_cons]
        rw [hab] at hlast
        cases hl : (a :: b).getLast? with
        | none => rw [List.getLast?_eq_none_iff] at hl; exact absurd hl (by simp)
        | some z =>
          rw [hl] at hlast
          show (some z).or _ ≠ some ':'
          simpa using hlast

/-! Range bookkeeping for the formatter's index lists. -/

theorem range'_drop : ∀ (n s k : Nat), (List.range' s n).drop k = List.range' (s + k) (n - k) := by
  intro n
  induction n with
  | zero => intro s k; simp
  | succ n ih =>
    intro s k
    rw [List.range'_succ]
    cases k with
    | zero => simp [List.range'_succ]
    | succ k =>
      rw [List.drop_succ_cons]
      rw [ih (s + 1) k]
      congr 1 <;> omega

theorem range_drop (n k : Nat) : (List.range n).drop k = List.range' k (n - k) := by
  rw [List.range_eq_range', range'_drop]
  norm_num

theorem take_hextets (v s : Nat) (hs : s ≤ 8) :
    (List.range s).map (fun i => toHex (AddrV6.hextetAt v i)) =
      (((List.range 8).map (AddrV6.hextetAt v)).take s).map toHex := by
  rw [← List.map_take, List.take_range, Nat.min_eq_left hs]
  rw [List.map_map]
  apply List.map_congr_left
  intro i _
  simp [Function.comp]

theorem drop_hextets (v mp : Nat) :
    (List.range' (mp + 1) (7 - mp)).map (fun i => toHex (AddrV6.hextetAt v i)) =
      (((List.range 8).map (AddrV6.hextetAt v)).drop (mp + 1)).map toHex := by
  rw [← List.map_drop, range_drop]
  rw [show 8 - (mp + 1) = 7 - mp from by omega]
  rw [List.map_map]
  apply List.map_congr_left
  intro i _
  simp [Function.comp]

theorem to_string_plain (v : Nat) (h0 : v ≠ 0)
    (hml : ¬ 1 < (codeSel (((List.range 8).map (AddrV6.hextetAt v)).map
      (fun h => h == 0))).1) :
    AddrV6.to_string v =
      List.intercalate [':'] (((List.range 8).map (AddrV6.hextetAt v)).map toHex) := by
  unfold AddrV6.to_string
  rw [if_neg h0]
  simp only
  rw [dpFrom_eq_dpB]
  have hsel' : AddrV6.maxScan
      (dpB 0 (((List.range 8).map (AddrV6.hextetAt v)).map (fun h => h == 0))) 0 (0, 0) =
      codeSel (((List.range 8).map (AddrV6.hextetAt v)).map (fun h => h == 0)) := rfl
  rw [hsel']
  rw [if_neg hml]

set_option maxHeartbeats 1000000 in
theorem to_string_compressed (v : Nat) (h0 : v ≠ 0) (hv : v < 2 ^ 128)
    (ml mp : Nat)
    (hsel : codeSel (((List.range 8).map (AddrV6.hextetAt v)).map (fun h => h == 0)) =
      (ml, mp))
    (hml : 1 < ml) :
    AddrV6.to_string v =
      List.intercalate [':']
          ((((List.range 8).map (AddrV6.hextetAt v)).take (mp + 1 - ml)).map toHex) ++
        ':' :: ':' ::
        List.intercalate [':']
          ((((List.range 8).map (AddrV6.hextetAt v)).drop (mp + 1)).map toHex) := by
  have hm8 : ((((List.range 8).map (AddrV6.hextetAt v)).map (fun h => h == 0))).length = 8 := by
    simp
  have hrun := codeSel_run _ hm8 (by rw [hsel]; exact hml)
  rw [hsel] at hrun
  obtain ⟨hmp8, hmlle, hzero⟩ := hrun
  have hzx : ∀ i, mp + 1 - ml ≤ i → i ≤ mp → AddrV6.hextetAt v i = 0 := by
    intro i h1 h2
    exact (mask_getD v i (by omega)).mp (hzero i h1 h2)
  unfold AddrV6.to_string
  rw [if_neg h0]
  simp only
  rw [dpFrom_eq_dpB]
  have hsel' : AddrV6.maxScan
      (dpB 0 (((List.range 8).map (AddrV6.hextetAt v)).map (fun h => h == 0))) 0 (0, 0) =
      (ml, mp) := hsel
  rw [hsel']
  simp only
  rw [if_pos hml]
  rw [take_hextets v (mp + 1 - ml) (by omega)]
  rw [drop_hextets v mp]
  set PRE := List.map toHex (List.take (mp + 1 - ml) (List.map (AddrV6.hextetAt v) (List.range 8))) with hPRE
  set SUF := List.map toHex (List.drop (mp + 1) (List.map (AddrV6.hextetAt v) (List.range 8))) with hSUF
  have hPRElen : PRE.length = mp + 1 - ml := by
    rw [hPRE]
    simp
    omega
  have hSUFlen : SUF.length = 7 - mp := by
    rw [hSUF]
    simp
  have hPREmem : ∀ x ∈ PRE, x ≠ [] := by
    intro x hx
    rw [hPRE] at hx
    obtain ⟨h', _, rfl⟩ := List.mem_map.mp hx
    exact toHex_ne_nil h'
  have hSUFmem : ∀ x ∈ SUF, x ≠ [] := by
    intro x hx
    rw [hSUF] at hx
    obtain ⟨h', _, rfl⟩ := List.mem_map.mp hx
    exact toHex_ne_nil h'
  by_cases hpre0 : mp + 1 - ml = 0
  · have hPREnil : PRE = [] := by
      rw [← List.length_eq_zero, hPRElen]
      exact hpre0
    have hmp7 : mp ≠ 7 := by
      intro h7
      apply h0
      rw [← hextets_recompose v hv]
      apply beVal_zeros
      intro x hx
      obtain ⟨i, hi, rfl⟩ := List.mem_map.mp hx
      have hi8 : i < 8 := List.mem_range.mp hi
      exact hzx i (by omega) (by omega)
    have hSUFne : SUF ≠ [] := by
      intro hemp
      have := congrArg List.length hemp
      rw [hSUFlen] at this
      simp at this
      omega
    rw [hPREnil]
    simp only [List.nil_append, intercalate_nil]
    rw [List.singleton_append]
    rw [if_pos (show ([] :: SUF).head? = some [] from rfl)]
    simp only [List.tail_cons]
    rw [intercalate_cons _ _ _ hSUFne]
    simp
  · have hPREne : PRE ≠ [] := by
      intro hemp
      have := congrArg List.length hemp
      rw [hPRElen] at this
      simp at this
      exact hpre0 this
    obtain ⟨a, ta, ha⟩ := List.exists_cons_of_ne_nil hPREne
    have hane : a ≠ [] := hPREmem a (by rw [ha]; simp)
    by_cases hmp7 : mp = 7
    · have hSUFnil : SUF = [] := by
        rw [← List.length_eq_zero, hSUFlen]
        omega
      rw [hSUFnil]
      simp only [List.append_nil, intercalate_nil]
      have hhd : ¬ ((PRE ++ [[]]).head? = some []) := by
        rw [ha]
        simp [hane]
      rw [if_neg hhd]
      rw [if_pos (List.getLast?_concat PRE)]
      rw [List.dropLast_concat]
      rw [intercalate_append_ne [':'] PRE [[':']] hPREne (by simp)]
      rw [intercalate_singleton]
      simp
    · have hSUFne : SUF ≠ [] := by
        intro hemp
        have := congrArg List.length hemp
        rw [hSUFlen] at this
        simp at this
        omega
      obtain ⟨z, hz⟩ : ∃ z, SUF.getLast? = some z := by
        cases hl : SUF.getLast? with
        | none =>
          rw [List.getLast?_eq_none_iff] at hl
          exact absurd hl hSUFne
        | some z => exact ⟨z, rfl⟩
      have hzne : z ≠ [] := by
        apply hSUFmem
        obtain ⟨hne', heq⟩ := List.mem_getLast?_eq_getLast
          (show z ∈ SUF.getLast? from by rw [hz]; rfl)
        rw [heq]
        exact List.getLast_mem hne'
      have hhd : ¬ ((PRE ++ [[]] ++ SUF).head? = some []) := by
        rw [ha]
        simp [hane]
      rw [if_neg hhd]
      have hlst : ¬ ((PRE ++ [[]] ++ SUF).getLast? = some []) := by
        rw [List.append_assoc, List.getLast?_append, List.getLast?_append, hz]
        simpa [Option.or] using hzne
      rw [if_neg hlst]
      rw [intercalate_middle_empty PRE SUF hSUFne]
      rw [if_neg hPREne]
      simp

theorem tokens_of_intercalate (L : List (List Char)) (h : ∀ x ∈ L, x ≠ [] ∧ ':' ∉ x) :
    (splitC (List.intercalate [':'] L)).filter (fun s => s.length > 0) = L := by
  cases L with
  | nil => rfl
  | cons x l =>
    rw [splitC_intercalate (x :: l) (fun z hz => (h z hz).2) (by simp)]
    apply List.filter_eq_self.mpr
    intro z hz
    have hz' := (h z hz).1
    simp [List.length_pos, hz']

theorem hextets_toHex_facts (v : Nat) :
    ∀ x ∈ ((List.range 8).map (AddrV6.hextetAt v)).map toHex, x ≠ [] ∧ ':' ∉ x := by
  intro x hx
  obtain ⟨h', _, rfl⟩ := List.mem_map.mp hx
  exact ⟨toHex_ne_nil h', toHex_no_colon h'⟩

theorem roundtrip_v6_plain (v : Nat) (h0 : v ≠ 0) (hv : v < 2 ^ 128)
    (hml : ¬ 1 < (codeSel (((List.range 8).map (AddrV6.hextetAt v)).map
      (fun h => h == 0))).1) :
    AddrV6.from_string (AddrV6.to_string v) = .ok v := by
  have hmem := hextets_toHex_facts v
  have hLne : ((List.range 8).map (AddrV6.hextetAt v)).map toHex ≠ [] := by simp
  obtain ⟨hcc, hhead, hlast, hne⟩ := inter_props _ hLne hmem
  rw [to_string_plain v h0 hml]
  rw [from_string_v6_one_part _ _ (splitCC_no_cc _ hcc)]
  rw [tokens_of_intercalate _ hmem]
  have hlen : (((List.range 8).map (AddrV6.hextetAt v)).map toHex).length = 8 := by
    simp
  rw [hlen]
  rw [if_neg (by norm_num), if_neg (by norm_num)]
  have hM : hextetsM (((List.range 8).map (AddrV6.hextetAt v)).map toHex) =
      .ok ((List.range 8).map (AddrV6.hextetAt v)) := by
    apply hextetsM_toHex
    intro x hx
    obtain ⟨i, _, rfl⟩ := List.mem_map.mp hx
    exact hextetAt_lt v i
  rw [assemble_ok [] _ [] ((List.range 8).map (AddrV6.hextetAt v))
    (show hextetsM [] = .ok [] from rfl) hM (by simp)]
  rw [beVal_nil]
  rw [hextets_recompose v hv]
  simp

set_option maxHeartbeats 1000000 in
theorem roundtrip_v6_compressed (v : Nat) (h0 : v ≠ 0) (hv : v < 2 ^ 128)
    (ml mp : Nat)
    (hsel : codeSel (((List.range 8).map (AddrV6.hextetAt v)).map (fun h => h == 0)) =
      (ml, mp))
    (hml : 1 < ml) :
    AddrV6.from_string (AddrV6.to_string v) = .ok v := by
  have hm8 : ((((List.range 8).map (AddrV6.hextetAt v)).map (fun h => h == 0))).length = 8 := by
    simp
  have hrun := codeSel_run _ hm8 (by rw [hsel]; exact hml)
  rw [hsel] at hrun
  obtain ⟨hmp8, hmlle, hzero⟩ := hrun
  simp only at hmp8 hmlle
  have hzx : ∀ i, mp + 1 - ml ≤ i → i ≤ mp → AddrV6.hextetAt v i = 0 := fun i h1 h2 =>
    (mask_getD v i (by omega)).mp (hzero i h1 h2)
  rw [to_string_compressed v h0 hv ml mp hsel hml]
  set HS := (List.range 8).map (AddrV6.hextetAt v) with hHS
  set PRE := (HS.take (mp + 1 - ml)).map toHex with hPREdef
  set SUF := (HS.drop (mp + 1)).map toHex with hSUFdef
  have hHSlen : HS.length = 8 := by rw [hHS]; simp
  have hPREmem : ∀ x ∈ PRE, x ≠ [] ∧ ':' ∉ x := by
    intro x hx
    rw [hPREdef] at hx
    obtain ⟨h', _, rfl⟩ := List.mem_map.mp hx
    exact ⟨toHex_ne_nil h', toHex_no_colon h'⟩
  have hSUFmem : ∀ x ∈ SUF, x ≠ [] ∧ ':' ∉ x := by
    intro x hx
    rw [hSUFdef] at hx
    obtain ⟨h', _, rfl⟩ := List.mem_map.mp hx
    exact ⟨toHex_ne_nil h', toHex_no_colon h'⟩
  have hIAfacts : hasCC (List.intercalate [':'] PRE) = false ∧
      (List.intercalate [':'] PRE).getLast? ≠ some ':' := by
    by_cases hP : PRE = []
    · rw [hP, intercalate_nil]
      exact ⟨rfl, by simp⟩
    · obtain ⟨hcc, _, hlast, _⟩ := inter_props PRE hP hPREmem
      exact ⟨hcc, hlast⟩
  have hIBcc : hasCC (List.intercalate [':'] SUF) = false := by
    by_cases hS : SUF = []
    · rw [hS, intercalate_nil]
      rfl
    · exact (inter_props SUF hS hSUFmem).1
  have hsplit : splitCC (List.intercalate [':'] PRE ++ ':' :: ':' ::
      List.intercalate [':'] SUF) =
      [List.intercalate [':'] PRE, List.intercalate [':'] SUF] := by
    rw [splitCC_marker _ hIAfacts.1 hIAfacts.2, splitCC_no_cc _ hIBcc]
  rw [from_string_v6_two_parts _ _ _ hsplit]
  rw [tokens_of_intercalate PRE hPREmem, tokens_of_intercalate SUF hSUFmem]
  have hPRElen : PRE.length = mp + 1 - ml := by
    rw [hPREdef]
    simp [hHSlen]
    omega
  have hSUFlen : SUF.length = 7 - mp := by
    rw [hSUFdef]
    simp [hHSlen]
  rw [if_neg (by rw [hPRElen, hSUFlen]; omega)]
  have hHSlt : ∀ x ∈ HS, x < 2 ^ 16 := by
    intro x hx
    rw [hHS] at hx
    obtain ⟨i, _, rfl⟩ := List.mem_map.mp hx
    exact hextetAt_lt v i
  have hMA : hextetsM PRE = .ok (HS.take (mp + 1 - ml)) := by
    rw [hPREdef]
    exact hextetsM_toHex _ (fun x hx => hHSlt x (List.take_subset _ _ hx))
  have hMB : hextetsM SUF = .ok (HS.drop (mp + 1)) := by
    rw [hSUFdef]
    exact hextetsM_toHex _ (fun x hx => hHSlt x (List.drop_subset _ _ hx))
  have htlen : (HS.take (mp + 1 - ml)).length = mp + 1 - ml := by
    simp [hHSlen]
    omega
  have hdlen : (HS.drop (mp + 1)).length = 7 - mp := by
    simp [hHSlen]
  rw [assemble_ok PRE SUF _ _ hMA hMB (by rw [htlen, hdlen]; omega)]
  congr 1
  rw [htlen]
  have hdecomp : HS = HS.take (mp + 1 - ml) ++
      ((HS.drop (mp + 1 - ml)).take ml ++ HS.drop (mp + 1)) := by
    have h2 := List.take_append_drop ml (HS.drop (mp + 1 - ml))
    rw [List.drop_drop] at h2
    rw [show mp + 1 - ml + ml = mp + 1 from by omega] at h2
    have h1 := List.take_append_drop (mp + 1 - ml) HS
    rw [← h2] at h1
    exact h1.symm
  have hmidlen : ((HS.drop (mp + 1 - ml)).take ml).length = ml := by
    simp [hHSlen]
    omega
  have hmid0 : ∀ x ∈ (HS.drop (mp + 1 - ml)).take ml, x = 0 := by
    intro x hx
    obtain ⟨j, hj, hxj⟩ := List.mem_iff_getElem.mp hx
    simp only [List.getElem_take, List.getElem_drop] at hxj
    have hjml : j < ml := by
      rw [hmidlen] at hj
      exact hj
    have hidx : mp + 1 - ml + j < HS.length := by
      rw [hHSlen]
      omega
    have hget : HS[mp + 1 - ml + j] = AddrV6.hextetAt v (mp + 1 - ml + j) := by
      simp only [hHS, List.getElem_map, List.getElem_range]
    rw [hget] at hxj
    rw [← hxj]
    exact hzx _ (by omega) (by omega)
  have hval : beVal 16 HS =
      beVal 16 (HS.take (mp + 1 - ml)) * 2 ^ (16 * (8 - (mp + 1 - ml))) +
        beVal 16 (HS.drop (mp + 1)) := by
    conv_lhs => rw [hdecomp]
    rw [beVal_append, beVal_append, beVal_zeros _ _ hmid0]
    rw [List.length_append, hmidlen, hdlen]
    rw [show 16 * (ml + (7 - mp)) = 16 * (8 - (mp + 1 - ml)) from by omega]
    simp
  have hrecomp : beVal 16 HS = v := by
    rw [hHS]
    exact hextets_recompose v hv
  rw [← hrecomp, hval]

theorem toDec_no_dot (n : Nat) : '.' ∉ toDec n := by
  intro h
  have := toDec_digits n '.' h
  revert this
  decide

theorem v4Loop_step (comp rest : List Char) (res cnt m : Nat)
    (hcnt : cnt < 4) (hdot : '.' ∉ comp)
    (hm : AddrV4.component_to_u8 comp = .ok m) :
    AddrV4.v4Loop (comp ++ '.' :: rest) [] res cnt =
      AddrV4.v4Loop rest [] (((res <<< 8) % 2 ^ 32) ||| m) (cnt + 1) := by
  rw [v4Loop_no_dot comp _ [] res cnt hdot]
  simp only [List.nil_append, AddrV4.v4Loop, if_true]
  rw [if_neg (by omega), hm]

theorem v4Loop_last (comp : List Char) (res cnt m : Nat)
    (hcnt : cnt < 4) (hdot : '.' ∉ comp)
    (hm : AddrV4.component_to_u8 comp = .ok m) (h4 : cnt + 1 = 4) :
    AddrV4.v4Loop comp [] res cnt = .ok (((res <<< 8) % 2 ^ 32) ||| m) := by
  have hnd := v4Loop_no_dot comp [] [] res cnt hdot
  rw [List.append_nil] at hnd
  rw [hnd]
  simp only [AddrV4.v4Loop, List.nil_append]
  rw [if_neg (by omega), hm]
  show (if cnt + 1 = 4 then Except.ok (((res <<< 8) % 2 ^ 32) ||| m)
    else Except.error Error.MissingComponents) = _
  rw [if_pos h4]

theorem shift_or_step (res m : Nat) (hres : res < 2 ^ 24) (hm : m < 2 ^ 8) :
    ((res <<< 8) % 2 ^ 32) ||| m = res * 2 ^ 8 + m := by
  rw [Nat.shiftLeft_eq]
  rw [Nat.mod_eq_of_lt (by
    calc res * 2 ^ 8 < 2 ^ 24 * 2 ^ 8 := mul_lt_mul_of_pos_right hres (by norm_num)
      _ = 2 ^ 32 := by norm_num)]
  exact or_disjoint res m 8 hm

theorem roundtrip_v4 (v : Nat) (hv : v < 2 ^ 32) :
    AddrV4.from_string (AddrV4.to_string v) = .ok v := by
  have ha : (v >>> 24) &&& 0xff = v / 2 ^ 24 % 2 ^ 8 := by
    rw [Nat.shiftRight_eq_div_pow, show (0xff : Nat) = 2 ^ 8 - 1 from by norm_num,
      Nat.and_pow_two_sub_one_eq_mod]
  have hb : (v >>> 16) &&& 0xff = v / 2 ^ 16 % 2 ^ 8 := by
    rw [Nat.shiftRight_eq_div_pow, show (0xff : Nat) = 2 ^ 8 - 1 from by norm_num,
      Nat.and_pow_two_sub_one_eq_mod]
  have hc : (v >>> 8) &&& 0xff = v / 2 ^ 8 % 2 ^ 8 := by
    rw [Nat.shiftRight_eq_div_pow, show (0xff : Nat) = 2 ^ 8 - 1 from by norm_num,
      Nat.and_pow_two_sub_one_eq_mod]
  have hd : v &&& 0xff = v % 2 ^ 8 := by
    rw [show (0xff : Nat) = 2 ^ 8 - 1 from by norm_num, Nat.and_pow_two_sub_one_eq_mod]
  have hA : v / 2 ^ 24 % 2 ^ 8 < 256 := Nat.mod_lt _ (by norm_num)
  have hB : v / 2 ^ 16 % 2 ^ 8 < 256 := Nat.mod_lt _ (by norm_num)
  have hC : v / 2 ^ 8 % 2 ^ 8 < 256 := Nat.mod_lt _ (by norm_num)
  have hD : v % 2 ^ 8 < 256 := Nat.mod_lt _ (by norm_num)
  unfold AddrV4.to_string AddrV4.from_string
  rw [ha, hb, hc, hd]
  rw [v4Loop_step _ _ 0 0 _ (by omega) (toDec_no_dot _)
    (component_to_u8_toDec _ hA)]
  rw [v4Loop_step _ _ _ 1 _ (by omega) (toDec_no_dot _)
    (component_to_u8_toDec _ hB)]
  rw [v4Loop_step _ _ _ 2 _ (by omega) (toDec_no_dot _)
    (component_to_u8_toDec _ hC)]
  rw [v4Loop_last _ _ 3 _ (by omega) (toDec_no_dot _)
    (component_to_u8_toDec _ hD) (by omega)]
  rw [shift_or_step 0 (v / 2 ^ 24 % 2 ^ 8) (by norm_num) (by omega)]
  rw [shift_or_step (0 * 2 ^ 8 + v / 2 ^ 24 % 2 ^ 8) (v / 2 ^ 16 % 2 ^ 8)
    (by norm_num; omega) (by omega)]
  rw [shift_or_step ((0 * 2 ^ 8 + v / 2 ^ 24 % 2 ^ 8) * 2 ^ 8 + v / 2 ^ 16 % 2 ^ 8)
    (v / 2 ^ 8 % 2 ^ 8) (by norm_num; omega) (by omega)]
  rw [shift_or_step
    (((0 * 2 ^ 8 + v / 2 ^ 24 % 2 ^ 8) * 2 ^ 8 + v / 2 ^ 16 % 2 ^ 8) * 2 ^ 8 +
      v / 2 ^ 8 % 2 ^ 8)
    (v % 2 ^ 8) (by norm_num; omega) (by omega)]
  congr 1
  norm_num
  omega

/-- C1: round-trip stability. For every 128-bit value, formatting with
`AddrV6::to_string` and re-parsing with `AddrV6::from_string` returns the
identical value; likewise for every 32-bit value through
`AddrV4::to_string` / `AddrV4::from_string`. -/
theorem claim_C1 :
    (∀ v : Nat, v < 2 ^ 128 → AddrV6.from_string (AddrV6.to_string v) = .ok v) ∧
    (∀ v : Nat, v < 2 ^ 32 → AddrV4.from_string (AddrV4.to_string v) = .ok v) := by
  constructor
  · intro v hv
    by_cases h0 : v = 0
    · subst h0
      decide
    · rcases hsel : codeSel (((List.range 8).map (AddrV6.hextetAt v)).map
        (fun h => h == 0)) with ⟨ml, mp⟩
      by_cases hml : 1 < ml
      · exact roundtrip_v6_compressed v h0 hv ml mp hsel hml
      · apply roundtrip_v6_plain v h0 hv
        rw [hsel]
        exact hml
  · exact roundtrip_v4

/-- Witness for C1 at the concrete values `2001:db8::1:0:0:1` and
`192.168.1.2`. -/
theorem claim_C1_witness :
    (0x20010db8000000000001000000000001 < 2 ^ 128 ∧
      AddrV6.from_string (AddrV6.to_string 0x20010db8000000000001000000000001) =
        .ok 0x20010db8000000000001000000000001) ∧
    (0xc0a80102 < 2 ^ 32 ∧
      AddrV4.from_string (AddrV4.to_string 0xc0a80102) = .ok 0xc0a80102) :=
  ⟨⟨by norm_num, claim_C1.1 _ (by norm_num)⟩,
    ⟨by norm_num, claim_C1.2 _ (by norm_num)⟩⟩

theorem rfc5952Format_some (addr s len : Nat)
    (h : specSel (((List.range 8).map (AddrV6.hextetAt addr)).map (fun x => x == 0)) =
      some (s, len)) :
    rfc5952Format addr =
      List.intercalate [':']
          ((((List.range 8).map (AddrV6.hextetAt addr)).take s).map toHex) ++
        ':' :: ':' ::
        List.intercalate [':']
          ((((List.range 8).map (AddrV6.hextetAt addr)).drop (s + len)).map toHex) := by
  show (match specSel (((List.range 8).map (AddrV6.hextetAt addr)).map (fun x => x == 0)) with
    | some (s, len) =>
      List.intercalate [':']
          ((((List.range 8).map (AddrV6.hextetAt addr)).take s).map toHex) ++
        ':' :: ':' ::
        List.intercalate [':']
          ((((List.range 8).map (AddrV6.hextetAt addr)).drop (s + len)).map toHex)
    | none =>
      List.intercalate [':'] (((List.range 8).map (AddrV6.hextetAt addr)).map toHex)) = _
  rw [h]

theorem rfc5952Format_none (addr : Nat)
    (h : specSel (((List.range 8).map (AddrV6.hextetAt addr)).map (fun x => x == 0)) =
      none) :
    rfc5952Format addr =
      List.intercalate [':'] (((List.range 8).map (AddrV6.hextetAt addr)).map toHex) := by
  show (match specSel (((List.range 8).map (AddrV6.hextetAt addr)).map (fun x => x == 0)) with
    | some (s, len) =>
      List.intercalate [':']
          ((((List.range 8).map (AddrV6.hextetAt addr)).take s).map toHex) ++
        ':' :: ':' ::
        List.intercalate [':']
          ((((List.range 8).map (AddrV6.hextetAt addr)).drop (s + len)).map toHex)
    | none =>
      List.intercalate [':'] (((List.range 8).map (AddrV6.hextetAt addr)).map toHex)) = _
  rw [h]

/-- C2: for every nonzero 128-bit value, `AddrV6::to_string` produces exactly
the output of the specification's formatter (`rfc5952Format`): the leftmost
of the longest maximal zero runs, and only a run of length at least 2, is
compressed with `::`; hextets before/after the run are printed in lowercase
hex without leading zeros, joined by `':'`, with `::` at the edge when the
run touches position 0 or 7. A lone zero group is never compressed:
`1:0:1:0:1:0:1:0` keeps its spelling. -/
theorem claim_C2 :
    (∀ v : Nat, v ≠ 0 → v < 2 ^ 128 → AddrV6.to_string v = rfc5952Format v) ∧
    AddrV6.to_string 0x00010000000100000001000000010000 = "1:0:1:0:1:0:1:0".toList := by
  constructor
  · intro v h0 hv
    have hm8 : ((((List.range 8).map (AddrV6.hextetAt v)).map
        (fun h => h == 0))).length = 8 := by
      simp
    rcases hsel : codeSel (((List.range 8).map (AddrV6.hextetAt v)).map
      (fun h => h == 0)) with ⟨ml, mp⟩
    by_cases hml : 1 < ml
    · have hrun := codeSel_run _ hm8 (by rw [hsel]; exact hml)
      rw [hsel] at hrun
      obtain ⟨hmp8, hmlle, _⟩ := hrun
      simp only at hmp8 hmlle
      rw [to_string_compressed v h0 hv ml mp hsel hml]
      have hspec := specSel_of_gt1 _ hm8 (by rw [hsel]; exact hml)
      rw [hsel] at hspec
      simp only at hspec
      rw [rfc5952Format_some v (mp + 1 - ml) ml hspec]
      rw [show mp + 1 - ml + ml = mp + 1 from by omega]
    · rw [to_string_plain v h0 (by rw [hsel]; exact hml)]
      have hspec := specSel_of_le1 _ hm8 (by rw [hsel]; exact hml)
      rw [rfc5952Format_none v hspec]
  · decide

/-- Witness for C2 at the concrete value `2001:db8::1:0:0:1`. -/
theorem claim_C2_witness :
    (0x20010db8000000000001000000000001 ≠ 0 ∧
      0x20010db8000000000001000000000001 < 2 ^ 128) ∧
    AddrV6.to_string 0x20010db8000000000001000000000001 =
      rfc5952Format 0x20010db8000000000001000000000001 :=
  ⟨⟨by norm_num, by norm_num⟩, claim_C2.1 _ (by norm_num) (by norm_num)⟩
